import Mathlib

/-!
# Verification of the SystemRDL node overlay (`systemrdl/node.py`)

A shallow embedding of the query-overlay layer of the SystemRDL compiler:
the component tree, the `Node` overlay hierarchy, address arithmetic for
(multi-dimensional) arrays, property resolution, and hierarchical path
construction and parsing, together with proofs of the specified properties.

Paths are modelled at the character-list level (`List Char`), with `String`
only as a trivial wrapper at the API boundary, mirroring the Python code's
string manipulation. Python exceptions are modelled with `Except` over an
explicit error type carrying the exception kind and message.
-/

namespace SystemRDL

/-- ASCII model of the regex class `\w`: letters, digits and underscore. -/
def wordChar (c : Char) : Bool := c.isAlphanum || c == '_'

/-- Decimal digit character for a value `d < 10` (used to render array indices,
matching Python's `"[{index:d}]".format`). -/
def digitChar (d : Nat) : Char := Char.ofNat (48 + d)

/-- Numeric value of a decimal digit character. -/
def digitVal (c : Char) : Nat := c.toNat - 48

/-- Auxiliary decimal printer accumulating least-significant digits; the
fuel argument (any bound above `n`) only forces structural recursion and
never runs out when above `n`. -/
def natToDecAux : Nat → Nat → List Char → List Char
  | 0, _, acc => acc
  | fuel + 1, n, acc =>
      if n < 10 then digitChar n :: acc
      else natToDecAux fuel (n / 10) (digitChar (n % 10) :: acc)

/-- Canonical decimal rendering of a natural number (no leading zeros),
the form produced by Python's `"{index:d}"` formatting. -/
def natToDec (n : Nat) : List Char := natToDecAux (n + 1) n []

/-- `str.split('.')` on a character list: split at every dot, keeping empty
pieces, exactly as Python's `path.split('.')`. -/
def splitOnDot : List Char → List (List Char)
  | [] => [[]]
  | c :: cs =>
    if c = '.' then [] :: splitOnDot cs
    else
      match splitOnDot cs with
      | [] => [[c]]
      | s :: rest => (c :: s) :: rest

/-- `hier_separator.join(segs)` for the default separator `"."`. -/
def joinDot : List (List Char) → List Char
  | [] => []
  | [s] => s
  | s :: ss => s ++ '.' :: joinDot ss

/-- The component kinds of the object model (`comp.Field`, `comp.Reg`,
`comp.Regfile`, `comp.Addrmap`, `comp.Mem`, `comp.Signal`, plus the root
component wrapped by `RootNode`). -/
inductive CompType where
  | root
  | field
  | reg
  | regfile
  | addrmap
  | mem
  | signal
deriving DecidableEq

/-- The kinds whose overlay is an `AddressableNode`
(`RegNode`, `RegfileNode`, `AddrmapNode`, `MemNode`). -/
def isAddressableType : CompType → Bool
  | .reg | .regfile | .addrmap | .mem => true
  | _ => false

/-- Property values stored in a component's `properties` dict. Component and
property references are kept symbolic (their resolution lives in the external
`rdltypes` module, outside this core). -/
inductive PropValue where
  | pvBool (b : Bool)
  | pvInt (i : Int)
  | pvStr (s : String)
  | pvCompRef (r : String)
  | pvPropRef (r : String)
  | pvNodeRef (path : String)
deriving DecidableEq

/-- Python truthiness of a property value (used by `children` for
`properties.get('ispresent', True)`). -/
def pyTruthy : PropValue → Bool
  | .pvBool b => b
  | .pvInt i => i ≠ 0
  | .pvStr s => s ≠ ""
  | .pvCompRef _ => true
  | .pvPropRef _ => true
  | .pvNodeRef _ => true

/-- A component instance of the elaborated tree (the external
`comp.Component` data consumed by `node.py`): its kind, instance name,
structural placement (`addr_offset`, `array_dimensions`, `array_stride`),
the resolved numeric values of the size-determining properties
(`regwidth`, `memwidth`, `mementries`), its explicit property dict and
its ordered children.

`array_stride` is meaningful only when `array_dimensions` is set
(Python models the absent case as `None`; it is never read then).
The `regwidth`/`memwidth`/`mementries` fields hold the values that
`get_property` resolves for those names, as the rulebook computing their
defaults is an external collaborator. -/
inductive Component where
  | mk
    (ctype : CompType)
    ( inst_name : List Char)
    (addr_offset : Nat)
    (array_dimensions : Option (List Nat))
    (array_stride : Nat)
    (regwidth : Nat)
    (memwidth : Nat)
    (mementries : Nat)
    (properties : List (String × PropValue))
    (children : List Component)

def Component.ctype : Component → CompType
  | .mk t _ _ _ _ _ _ _ _ _ => t

def Component.inst_name : Component → List Char
  | .mk _ n _ _ _ _ _ _ _ _ => n

def Component.addr_offset : Component → Nat
  | .mk _ _ a _ _ _ _ _ _ _ => a

def Component.array_dimensions : Component → Option (List Nat)
  | .mk _ _ _ d _ _ _ _ _ _ => d

def Component.array_stride : Component → Nat
  | .mk _ _ _ _ s _ _ _ _ _ => s

def Component.regwidth : Component → Nat
  | .mk _ _ _ _ _ r _ _ _ _ => r

def Component.memwidth : Component → Nat
  | .mk _ _ _ _ _ _ m _ _ _ => m

def Component.mementries : Component → Nat
  | .mk _ _ _ _ _ _ _ e _ _ => e

def Component.properties : Component → List (String × PropValue)
  | .mk _ _ _ _ _ _ _ _ p _ => p

def Component.children : Component → List Component
  | .mk _ _ _ _ _ _ _ _ _ c => c

/-- `comp.AddressableComponent.is_array`: whether the component was
instantiated as an array (its dimension list is set). -/
def Component.is_array (c : Component) : Bool := c.array_dimensions.isSome

/-- Modelled from the spec: `comp.AddressableComponent.n_elements`, the total
element count of an array — the product of its dimension sizes (the component
class itself is an external collaborator of this core). -/
def Component.n_elements (c : Component) : Nat :=
  (c.array_dimensions.getD []).prod

/-- Modelled from the spec: `comp.Component.get_child_by_name` — exact-name
lookup among immediate children, `None` if absent (§4.2 of the spec; the
component class is an external collaborator of this core). -/
def Component.comp_child_by_name (c : Component) (nm : List Char) : Option Component :=
  c.children.find? (fun ch => ch.inst_name = nm)

/-- A `Node` overlay: the wrapped component instance, the current array index
state (`AddressableNode.current_idx`; `none` when unknown or when the node
kind carries no index), and the parent overlay chain. -/
inductive NodeOv where
  | mk
    (inst : Component)
    (current_idx : Option (List Nat))
    (parent : Option NodeOv)

def NodeOv.inst : NodeOv → Component
  | .mk i _ _ => i

def NodeOv.current_idx : NodeOv → Option (List Nat)
  | .mk _ x _ => x

def NodeOv.parent : NodeOv → Option NodeOv
  | .mk _ _ p => p

/-- Python exception kinds raised by the overlay, with their messages. -/
inductive PyErr where
  | valueError (msg : String)
  | indexError (msg : String)
  | lookupError (msg : String)
  | assertionError
deriving DecidableEq

/-- The inner loop of `AddressableNode.address_offset`:
`sz = 1; for j in range(i+1, len(dims)): sz *= dims[j]`. -/
def innerSz (dims : List Nat) (i : Nat) : Nat :=
  (List.range' (i + 1) (dims.length - (i + 1))).foldl (fun sz j => sz * dims.getD j 0) 1

/-- The outer loop of `AddressableNode.address_offset`: the linear
("flattened") index of a multi-dimensional array access
(`idx = 0; for i in range(len(current_idx)): idx += sz * current_idx[i]`). -/
def flatIdx (dims idxs : List Nat) : Nat :=
  (List.range idxs.length).foldl (fun acc i => acc + innerSz dims i * idxs.getD i 0) 0

/-- `AddressableNode.raw_address_offset`: the component's structural byte
offset relative to its parent, ignoring any array index. -/
def NodeOv.raw_address_offset (n : NodeOv) : Nat := n.inst.addr_offset

/-- `AddressableNode.address_offset`: the raw offset for a non-array node;
for an array node, the raw offset plus `flattened_index * array_stride`, and
a `ValueError` when the current index is unknown. -/
def NodeOv.address_offset (n : NodeOv) : Except PyErr Nat :=
  if n.inst.is_array then
    match n.current_idx with
    | none => .error (.valueError "Index of array element must be known to derive address")
    | some idxs =>
        .ok (n.raw_address_offset + flatIdx (n.inst.array_dimensions.getD []) idxs * n.inst.array_stride)
  else
    .ok n.raw_address_offset

/-- `AddressableNode.raw_absolute_address`: sum of `raw_address_offset` up the
parent chain, stopping below the `RootNode`. -/
def NodeOv.raw_absolute_address : NodeOv → Nat
  | .mk inst idx parent =>
    match parent with
    | some p =>
        if p.inst.ctype ≠ CompType.root then
          p.raw_absolute_address + (NodeOv.mk inst idx parent).raw_address_offset
        else (NodeOv.mk inst idx parent).raw_address_offset
    | none => (NodeOv.mk inst idx parent).raw_address_offset

/-- `AddressableNode.absolute_address`: sum of `address_offset` up the parent
chain, stopping below the `RootNode`; fails when any array index on the chain
is unknown. The parent's address is computed before the node's own offset,
as in the Python expression `self.parent.absolute_address + self.address_offset`. -/
def NodeOv.absolute_address : NodeOv → Except PyErr Nat
  | .mk inst idx parent =>
    match parent with
    | some p =>
        if p.inst.ctype ≠ CompType.root then do
          let pa ← p.absolute_address
          let off ← (NodeOv.mk inst idx parent).address_offset
          pure (pa + off)
        else (NodeOv.mk inst idx parent).address_offset
    | none => (NodeOv.mk inst idx parent).address_offset

/-- The chain of nodes whose offsets `absolute_address` sums: the node itself
followed by its ancestors, up to but excluding the `RootNode`. -/
def NodeOv.lineage : NodeOv → List NodeOv
  | .mk inst idx parent =>
    NodeOv.mk inst idx parent ::
      (match parent with
       | some p => if p.inst.ctype ≠ CompType.root then p.lineage else []
       | none => [])

/-- Whether a node's own array index is fully usable: either it is not an
array, or its current index is set. -/
def idxKnown (n : NodeOv) : Bool := !n.inst.is_array || n.current_idx.isSome

/-- The value `address_offset` returns on a node with a known index
(`current_idx.getD []` is only reached when the index is known). -/
def offsetVal (n : NodeOv) : Nat :=
  if n.inst.is_array then
    n.raw_address_offset +
      flatIdx (n.inst.array_dimensions.getD []) (n.current_idx.getD []) * n.inst.array_stride
  else n.raw_address_offset

/-- Modelled from the spec: `helpers.roundup_pow2` (external `core.helpers`
module) — the smallest power of two that is at least `n`. -/
def roundupPow2 (n : Nat) : Nat := 2 ^ Nat.clog 2 n

/- `size` / `total_size` / `get_group_node_size` at the component level.
`compSize` dispatches on the component kind exactly as the overlay variants'
`size` properties do (`RegNode`, `MemNode`, `RegfileNode`, `AddrmapNode`);
kinds with no `size` (fields, signals, the root) are given 0.
`compTotalSize` is `AddressableNode.total_size`; `groupSize` is
`get_group_node_size`, which inspects only the last child. -/
mutual

/-- Per-variant `size` property: bytes occupied by one element. -/
def compSize : Component → Nat
  | c =>
    match c.ctype with
    | .reg => c.regwidth / 8
    | .mem => roundupPow2 (max c.memwidth 8) / 8 * c.mementries
    | .regfile => groupSize c
    | .addrmap => groupSize c
    | _ => 0
  termination_by c => (sizeOf c, 1)
  decreasing_by
    all_goals exact Prod.Lex.right _ (by omega)

/-- Python's `AddressableNode.total_size`. -/
def compTotalSize : Component → Nat
  | c => if c.is_array then c.array_stride * c.n_elements else compSize c
  termination_by c => (sizeOf c, 2)
  decreasing_by
    exact Prod.Lex.right _ (by omega)

/-- Python's `get_group_node_size`, at the component level. -/
def groupSize : Component → Nat
  | c =>
    match h : c.children.getLast? with
    | none => 0
    | some last =>
        if isAddressableType last.ctype then last.addr_offset + compTotalSize last
        else 0
  termination_by c => (sizeOf c, 0)
  decreasing_by
    have hm := List.mem_of_mem_getLast? h
    have h1 : sizeOf last < sizeOf c.children := List.sizeOf_lt_of_mem hm
    have h2 : sizeOf c.children < sizeOf c := by
      cases c with
      | mk t nm a d s r m e p ch =>
        simp only [Component.children]
        simp
    exact Prod.Lex.left _ _ (lt_trans h1 h2)

end

/-- `AddressableNode.size` on the overlay (`RegNode.size`, `MemNode.size`,
`RegfileNode.size`, `AddrmapNode.size`). -/
def NodeOv.size (n : NodeOv) : Nat := compSize n.inst

/-- `AddressableNode.total_size` on the overlay. -/
def NodeOv.total_size (n : NodeOv) : Nat := compTotalSize n.inst

/-- `get_group_node_size` applied to an overlay node (the shared getter for
`RegfileNode.size` and `AddrmapNode.size`). -/
def get_group_node_size (n : NodeOv) : Nat := groupSize n.inst

/-- `Node.owning_addrmap`: the node itself if it is an `AddrmapNode`, `None`
at the `RootNode`, otherwise the parent's owning addrmap; the Python
`assert self.parent is not None` is modelled as an `AssertionError`. -/
def NodeOv.owning_addrmap : NodeOv → Except PyErr (Option NodeOv)
  | .mk inst idx parent =>
    if inst.ctype = CompType.addrmap then .ok (some (NodeOv.mk inst idx parent))
    else if inst.ctype = CompType.root then .ok none
    else
      match parent with
      | some p => p.owning_addrmap
      | none => .error .assertionError

/-- Whether the parent chain of a node reaches a `RootNode`. -/
def NodeOv.reachesRoot : NodeOv → Bool
  | .mk inst _ parent =>
    inst.ctype = CompType.root ||
      (match parent with
       | some p => p.reachesRoot
       | none => false)

/-- `itertools.product(*[range(n) for n in dims])` as a list of index tuples:
the cartesian product of the dimension ranges, last dimension fastest. -/
def productRanges : List Nat → List (List Nat)
  | [] => [[]]
  | d :: ds => (List.range d).flatMap fun i => (productRanges ds).map (fun t => i :: t)

/-- `properties.get(key)` on the explicit property dict. -/
def lookupProp (props : List (String × PropValue)) (key : String) : Option PropValue :=
  (props.find? (fun kv => kv.1 = key)).map (fun kv => kv.2)

/-- `child_inst.properties.get('ispresent', True)` interpreted with Python
truthiness, as tested by `Node.children`. -/
def ispresentOf (c : Component) : Bool :=
  match lookupProp c.properties "ispresent" with
  | some v => pyTruthy v
  | none => true

/-- The overlays `Node.children` yields for one child component: the unrolled
per-element overlays for an addressable array child when `unroll` is set,
otherwise a single overlay with no index. -/
def childNodes (n : NodeOv) (child : Component) (unroll : Bool) : List NodeOv :=
  if unroll && isAddressableType child.ctype && child.is_array then
    (productRanges (child.array_dimensions.getD [])).map
      (fun idxs => NodeOv.mk child (some idxs) (some n))
  else [NodeOv.mk child none (some n)]

/-- `Node.children(unroll, skip_not_present)` collected into a list. -/
def NodeOv.children (n : NodeOv) (unroll skip_not_present : Bool) : List NodeOv :=
  n.inst.children.flatMap fun ch =>
    if skip_not_present && !ispresentOf ch then []
    else childNodes n ch unroll

/-- One path segment at the component level, with the default templates:
the instance name, plus per-dimension `"[{index:d}]"` suffixes when the
index is known, or `"[]"` suffixes when it is not, for addressable arrays
(`AddressableNode.get_path_segment`; the base `Node.get_path_segment` is
the bare instance name). -/
def segPrint (c : Component) (idx : Option (List Nat)) : List Char :=
  if isAddressableType c.ctype && c.is_array then
    match idx with
    | none => c.inst_name ++ (c.array_dimensions.getD []).flatMap (fun _ => ['[', ']'])
    | some l =>
        c.inst_name ++
          (l.zip (c.array_dimensions.getD [])).flatMap (fun p => '[' :: (natToDec p.1 ++ [']']))
  else c.inst_name

/-- `Node.get_path_segment` with the default suffix templates. -/
def pathSegmentOf (n : NodeOv) : List Char := segPrint n.inst n.current_idx

/-- `Node.get_path_segments` with the default templates: ancestor-to-self
segments, excluding the `RootNode`. -/
def NodeOv.get_path_segments : NodeOv → List (List Char)
  | .mk inst idx parent =>
    match parent with
    | some p =>
        if p.inst.ctype ≠ CompType.root then
          p.get_path_segments ++ [pathSegmentOf (NodeOv.mk inst idx parent)]
        else if inst.ctype ≠ CompType.root then [pathSegmentOf (NodeOv.mk inst idx parent)]
        else []
    | none =>
        if inst.ctype ≠ CompType.root then [pathSegmentOf (NodeOv.mk inst idx parent)]
        else []

/-- `Node.get_path` with the default separator and templates. -/
def NodeOv.get_path (n : NodeOv) : String := String.mk (joinDot n.get_path_segments)

/-- The common-leading-segment popping loop of `Node.get_rel_path`: pops in
lockstep from the reference segments, the canonical self segments and the
formatted self segments, and returns what remains of the reference and
formatted-self lists. -/
def relPop : List (List Char) → List (List Char) → List (List Char) →
    List (List Char) × List (List Char)
  | r :: rs, s :: ss, f :: fs =>
    if r = s then relPop rs ss fs else (r :: rs, f :: fs)
  | rs, _, fs => (rs, fs)

/-- `Node.get_rel_path(ref)` with the default uplevel token, separator and
templates (so the formatted self segments coincide with the canonical ones);
`extendleft` of identical `"^"` tokens is prepending their replication. -/
def NodeOv.get_rel_path (self ref : NodeOv) : String :=
  let p := relPop ref.get_path_segments self.get_path_segments self.get_path_segments
  String.mk (joinDot (List.replicate p.1.length ['^'] ++ p.2))

/-- Hexadecimal digit test for the regex class `[\da-fA-F]`. -/
def hexDigit (c : Char) : Bool :=
  c.isDigit || ('a' ≤ c && c ≤ 'f') || ('A' ≤ c && c ≤ 'F')

/-- Value of a hexadecimal digit character. -/
def hexVal (c : Char) : Nat :=
  if c.isDigit then digitVal c
  else if 'a' ≤ c && c ≤ 'f' then c.toNat - 87
  else c.toNat - 55

/-- Value of a decimal digit string. -/
def decValue (ds : List Char) : Nat := ds.foldl (fun a c => a * 10 + digitVal c) 0

/-- Value of a hexadecimal digit string. -/
def hexValue (ds : List Char) : Nat := ds.foldl (fun a c => a * 16 + hexVal c) 0

/-- Whether a bracket's content matches the regex alternation
`\d+|0[xX][\da-fA-F]+`. -/
def bracketShape (s : List Char) : Bool :=
  (!s.isEmpty && s.all Char.isDigit) ||
    (match s with
     | '0' :: x :: rest => (x == 'x' || x == 'X') && !rest.isEmpty && rest.all hexDigit
     | _ => false)

/-- Python's `int(s, 0)` on the strings the segment regex admits (decimal
digit runs and `0x`/`0X` hexadecimal literals): base-0 parsing rejects a
nonzero decimal with a leading zero (`int("010", 0)` raises `ValueError`)
and accepts all-zero runs. -/
def pyIntBase0 (s : List Char) : Option Nat :=
  if !s.isEmpty && s.all Char.isDigit then
    if s.head? = some '0' && s.any (fun c => c ≠ '0') then none
    else some (decValue s)
  else
    match s with
    | '0' :: x :: rest =>
        if (x == 'x' || x == 'X') && !rest.isEmpty && rest.all hexDigit then
          some (hexValue rest)
        else none
    | _ => none

/-- The `((?:\[...\])*)$` part of the segment regex as a left-to-right scan:
`cur` holds the reversed content of the currently open bracket (`none`
between brackets), `done` the bracket contents already read, reversed. The
scan accepts exactly the sequences of brackets whose contents match the
regex alternation (a content never contains `]`, in the regex as here). -/
def parseSuffixAux : List Char → Option (List Char) → List (List Char) →
    Option (List (List Char))
  | [], none, done => some done.reverse
  | [], some _, _ => none
  | c :: rest, none, done =>
      if c = '[' then parseSuffixAux rest (some []) done else none
  | c :: rest, some cur, done =>
      if c = ']' then
        if bracketShape cur.reverse then parseSuffixAux rest none (cur.reverse :: done)
        else none
      else parseSuffixAux rest (some (c :: cur)) done

/-- The bracketed index suffix of a segment, as the list of bracket contents;
fails unless the whole remainder is a sequence of well-shaped brackets. -/
def parseSuffix (s : List Char) : Option (List (List Char)) :=
  parseSuffixAux s none []

/-- `re.fullmatch(r'^(\w+)((?:\[(?:\d+|0[xX][\da-fA-F]+)\])*)$', seg)`:
the instance name and the raw bracket contents, or `none` when the segment
does not match. Since a word character is never `[`, the greedy `\w+` match
is the maximal word-character run and backtracking cannot help. -/
def segMatch (s : List Char) : Option (List Char × List (List Char)) :=
  let nm := s.takeWhile wordChar
  if nm.isEmpty then none
  else (parseSuffix (s.dropWhile wordChar)).map (fun bs => (nm, bs))

/-- One non-`^` segment of `Node.find_by_path`: regex match, `int(s, 0)`
conversion of the indices, child lookup and array-index validation. -/
def findOne (n : NodeOv) (seg : List Char) : Except PyErr (Option NodeOv) :=
  match segMatch seg with
  | none => .error (.valueError "Invalid path")
  | some (nm, bs) =>
    match bs.mapM pyIntBase0 with
    | none => .error (.valueError "invalid literal for int() with base 0")
    | some idxList =>
      match n.inst.comp_child_by_name nm with
      | none => .ok none
      | some child =>
        if !idxList.isEmpty then
          if !isAddressableType child.ctype then
            .error (.indexError "Index attempted on unindexable component")
          else if child.is_array then
            if idxList.length ≠ (child.array_dimensions.getD []).length then
              .error (.indexError "Wrong number of array dimensions")
            else if (idxList.zip (child.array_dimensions.getD [])).any
                (fun p => p.2 ≤ p.1) then
              .error (.indexError "Array index out of range")
            else .ok (some (NodeOv.mk child (some idxList) (some n)))
          else .error (.indexError "Index attempted on non-array component")
        else .ok (some (NodeOv.mk child none (some n)))

/-- The segment loop of `Node.find_by_path`: `^` moves to the parent when one
exists (a no-op at the root), any other segment goes through `findOne`; a
missing child name returns `None` immediately. -/
def findParts (n : NodeOv) : List (List Char) → Except PyErr (Option NodeOv)
  | [] => .ok (some n)
  | seg :: rest =>
    if seg = ['^'] then
      match n.parent with
      | some p => findParts p rest
      | none => findParts n rest
    else
      match findOne n seg with
      | .error e => .error e
      | .ok none => .ok none
      | .ok (some m) => findParts m rest

/-- `Node.find_by_path`: split on `"."` and resolve segment by segment. -/
def NodeOv.find_by_path (n : NodeOv) (path : String) : Except PyErr (Option NodeOv) :=
  findParts n (splitOnDot path.data)

/-- Modelled from the spec: one rule of the external property rulebook — the
component kinds the property binds to and the computed default for a node
(§6: "given a property name, return whether it is valid at all, the set of
component kinds it binds to, its computed default value for a given node"). -/
structure PropertyRule where
  bindable_to : List CompType
  get_default : NodeOv → PropValue

/-- Modelled from the spec: the shared `RDLEnvironment` — the property
rulebook lookup and the external value-conversion collaborators used by
`get_property` (`rdltypes` reference resolution, `helpers.dedent_text`),
kept as opaque function parameters of the environment (§6). -/
structure Env where
  dedent_desc : Bool
  dedent_text : String → String
  build_node_ref : String → NodeOv → PropValue
  resolve_prop_ref : String → NodeOv → PropValue
  property_rules : String → Option PropertyRule

/-- `Node.get_property(prop_name, default=...)`: an explicitly set value is
returned (component references resolved into node references, property
references bound, a string-valued `desc` dedented when enabled); otherwise a
caller-supplied override default is returned verbatim; otherwise the rulebook
is consulted, failing with `LookupError` when no rule exists or the rule does
not bind to this component's kind. `ovr` is `some d` when the caller passed
`default=d`. -/
def NodeOv.get_property (env : Env) (n : NodeOv) (prop_name : String)
    (ovr : Option PropValue) : Except PyErr PropValue :=
  match lookupProp n.inst.properties prop_name with
  | some pv =>
    match pv with
    | .pvCompRef r => .ok (env.build_node_ref r n)
    | .pvPropRef r => .ok (env.resolve_prop_ref r n)
    | .pvStr s =>
        if prop_name = "desc" && env.dedent_desc then .ok (.pvStr (env.dedent_text s))
        else .ok (.pvStr s)
    | other => .ok other
  | none =>
    match ovr with
    | some d => .ok d
    | none =>
      match env.property_rules prop_name with
      | none => .error (.lookupError ("Unknown property " ++ prop_name))
      | some rule =>
          if n.inst.ctype ∈ rule.bindable_to then .ok (rule.get_default n)
          else .error (.lookupError ("Unknown property " ++ prop_name))

/-- A descent step through the tree: the position of the child to enter and
the array index state to give its overlay (`none`: unknown / not an array). -/
structure Step where
  pos : Nat
  idx : Option (List Nat)

/-- Build the overlay reached from `a` by a list of descent steps; this is
the general form of every overlay the navigation API creates. -/
def descendNode (a : NodeOv) : List Step → Option NodeOv
  | [] => some a
  | st :: rest =>
    match a.inst.children[st.pos]? with
    | none => none
    | some c => descendNode (NodeOv.mk c st.idx (some a)) rest

/-- A usable instance name: nonempty and made of word characters (so it is a
`\w+` token and contains neither `.` nor `[`). -/
def goodNameB (nm : List Char) : Bool := !nm.isEmpty && nm.all wordChar

/- Structural well-formedness of a component subtree: sibling instance names
are distinct words, children are not root-typed, arrays are addressable
components with a nonempty dimension list. -/
mutual

/-- Well-formedness of one component: distinct child names, and each child
well-formed. -/
def wfCompB : Component → Bool
  | .mk _ _ _ _ _ _ _ _ _ children =>
      decide ((children.map Component.inst_name).Nodup) && wfChildrenB children

/-- Well-formedness of a list of child components. -/
def wfChildrenB : List Component → Bool
  | [] => true
  | ch :: rest =>
      goodNameB ch.inst_name && decide (ch.ctype ≠ CompType.root) &&
        (match ch.array_dimensions with
         | some ds => isAddressableType ch.ctype && !ds.isEmpty
         | none => true) &&
        wfCompB ch && wfChildrenB rest

end

/-- Validity of a step list from a component: every step enters an existing
child, and a step that sets an index does so on an array child with the right
dimension count and in-bounds entries. -/
def wfStepsB : Component → List Step → Bool
  | _, [] => true
  | c, st :: rest =>
    match c.children[st.pos]? with
    | none => false
    | some ch =>
        (match st.idx with
         | none => true
         | some l =>
             ch.is_array && decide (l.length = (ch.array_dimensions.getD []).length) &&
               (l.zip (ch.array_dimensions.getD [])).all (fun p => p.1 < p.2)) &&
          wfStepsB ch rest

/-- Whether every array step of a step list carries a known index. -/
def knownStepsB : Component → List Step → Bool
  | _, [] => true
  | c, st :: rest =>
    match c.children[st.pos]? with
    | none => false
    | some ch => (!ch.is_array || st.idx.isSome) && knownStepsB ch rest

/-- The printed path segments of a step list (what `get_path_segments`
appends below the starting node). -/
def stepsSegs (c : Component) : List Step → List (List Char)
  | [] => []
  | st :: rest =>
    match c.children[st.pos]? with
    | none => []
    | some ch => segPrint ch st.idx :: stepsSegs ch rest

/-- The component reached by a step list (for positioning hypotheses). -/
def compAt (c : Component) : List Step → Option Component
  | [] => some c
  | st :: rest =>
    match c.children[st.pos]? with
    | none => none
    | some ch => compAt ch rest

/-- Iterated move-to-parent, staying put at a parentless node, exactly as a
run of `^` segments behaves in `find_by_path`. -/
def upNode : NodeOv → Nat → NodeOv
  | n, 0 => n
  | n, u + 1 =>
    match n.parent with
    | some p => upNode p u
    | none => upNode n u

/-- The row-major flattening formula as the spec states it:
for dimensions `[S0, ..., Sn-1]` and index `[I0, ..., In-1]`, the value
`Σ Ik × Π S(k+1..n-1)` with the last dimension varying fastest. -/
def rowMajorIndex : List Nat → List Nat → Nat
  | _ :: ds, i :: is => i * ds.prod + rowMajorIndex ds is
  | _, _ => 0

/-- A concrete elaborated tree used to instantiate the theorems:
a 2x3 register array `arr` (stride 4, 32-bit) at offset 16. -/
def sampleArr : Component :=
  .mk .reg ['a', 'r', 'r'] 16 (some [2, 3]) 4 32 0 0 [] []

/-- A plain 64-bit register `r0` at offset 8. -/
def sampleReg : Component :=
  .mk .reg ['r', '0'] 8 none 0 64 0 0 [] []

/-- A signal child `s0` (not addressable). -/
def sampleSig : Component :=
  .mk .signal ['s', '0'] 0 none 0 0 0 0 [] []

/-- An addrmap `top` at offset 256 containing `s0`, `arr` and `r0`. -/
def sampleTop : Component :=
  .mk .addrmap ['t', 'o', 'p'] 256 none 0 0 0 0 [] [sampleSig, sampleArr, sampleReg]

/-- The root component above `top`. -/
def sampleRoot : Component :=
  .mk .root [] 0 none 0 0 0 0 [] [sampleTop]

/-- The root overlay of the sample tree. -/
def sampleRootOv : NodeOv := .mk sampleRoot none none

/-- The overlay of `top` under the root. -/
def sampleTopOv : NodeOv := .mk sampleTop none (some sampleRootOv)

/-- An overlay of `arr` with a chosen index state. -/
def sampleArrOv (i : Option (List Nat)) : NodeOv := .mk sampleArr i (some sampleTopOv)

/-- The overlay of `r0`. -/
def sampleRegOv : NodeOv := .mk sampleReg none (some sampleTopOv)

/-- The overlay of the signal `s0`. -/
def sampleSigOv : NodeOv := .mk sampleSig none (some sampleTopOv)

/-- A register file with a 32-bit register at offset 0 and a 64-bit register
at offset 4 (aggregate size 4 + 8 = 12). -/
def sampleRf : Component :=
  .mk .regfile ['r', 'f'] 0 none 0 0 0 0 []
    [.mk .reg ['a'] 0 none 0 32 0 0 [] [], .mk .reg ['b'] 4 none 0 64 0 0 [] []]

/-- A register file with no children. -/
def sampleRfEmpty : Component := .mk .regfile ['r', 'e'] 0 none 0 0 0 0 [] []

/-- A register file whose last child is a signal (not addressable). -/
def sampleRfSig : Component :=
  .mk .regfile ['r', 's'] 0 none 0 0 0 0 [] [.mk .signal ['s'] 0 none 0 0 0 0 [] []]

/-- A 2x2 register array `g` with stride 8 for the unroll example. -/
def sampleGrid : Component := .mk .reg ['g'] 0 (some [2, 2]) 8 32 0 0 [] []

/-- An addrmap holding only the 2x2 array. -/
def sampleGtop : Component := .mk .addrmap ['g', 't'] 0 none 0 0 0 0 [] [sampleGrid]

/-- The overlay of the addrmap holding the 2x2 array. -/
def sampleGtopOv : NodeOv := .mk sampleGtop none none

/-- The conversion `get_property` applies to an explicitly set value before
returning it: component references become node references, property
references are bound, and a string-valued `desc` is dedented when enabled. -/
def convertExplicit (env : Env) (n : NodeOv) (nm : String) : PropValue → PropValue
  | .pvCompRef r => env.build_node_ref r n
  | .pvPropRef r => env.resolve_prop_ref r n
  | .pvStr s =>
      if nm = "desc" && env.dedent_desc then .pvStr (env.dedent_text s) else .pvStr s
  | other => other

/-- An environment whose rulebook knows no property at all. -/
def emptyRulesEnv : Env where
  dedent_desc := false
  dedent_text := id
  build_node_ref := fun r _ => .pvNodeRef r
  resolve_prop_ref := fun r _ => .pvPropRef r
  property_rules := fun _ => none

/-- A rule binding only to registers, with default value 5. -/
def sampleRule : PropertyRule where
  bindable_to := [CompType.reg]
  get_default := fun _ => .pvInt 5

/-- An environment whose rulebook knows exactly the property `p1`. -/
def sampleEnv : Env where
  dedent_desc := true
  dedent_text := fun _ => "D"
  build_node_ref := fun r _ => .pvNodeRef r
  resolve_prop_ref := fun r _ => .pvPropRef r
  property_rules := fun nm => if nm = "p1" then some sampleRule else none

/-- A register with the explicit property `x = 3`. -/
def samplePropComp : Component :=
  .mk .reg ['q'] 0 none 0 32 0 0 [("x", .pvInt 3)] []

/-- The overlay of the register with an explicit property. -/
def samplePropOv : NodeOv := .mk samplePropComp none none

/-!
## Theorems

First the arithmetic of the flattened array index, then each claim in turn.
-/

theorem foldl_add_shift (g : Nat → Nat) (l : List Nat) : ∀ c : Nat,
    l.foldl (fun a x => a + g x) c = c + (l.map g).sum := by
  induction l with
  | nil => simp
  | cons x xs ih => intro c; simp only [List.foldl_cons, List.map_cons, List.sum_cons, ih]; omega

theorem foldl_mul_shift (h : Nat → Nat) (l : List Nat) : ∀ c : Nat,
    l.foldl (fun s j => s * h j) c = c * (l.map h).prod := by
  induction l with
  | nil => simp
  | cons x xs ih =>
      intro c
      simp only [List.foldl_cons, List.map_cons, List.prod_cons, ih, mul_assoc]

theorem range'_map_getD_shift (x : Nat) (xs : List Nat) (n : Nat) : ∀ s : Nat,
    (List.range' (s + 1) n).map (fun j => (x :: xs).getD j 0) =
      (List.range' s n).map (fun j => xs.getD j 0) := by
  induction n with
  | zero => intro s; simp
  | succ m ih =>
      intro s
      rw [List.range'_succ, List.range'_succ]
      simp only [List.map_cons, List.getD_cons_succ]
      rw [ih (s + 1)]

theorem range'_map_getD (l : List Nat) : ∀ a : Nat,
    (List.range' a (l.length - a)).map (fun j => l.getD j 0) = l.drop a := by
  induction l with
  | nil => intro a; simp
  | cons x xs ih =>
      intro a
      cases a with
      | zero =>
          show (List.range' 0 (xs.length + 1)).map (fun j => (x :: xs).getD j 0) = x :: xs
          rw [List.range'_succ]
          simp only [List.map_cons, List.getD_cons_zero]
          rw [range'_map_getD_shift x xs xs.length 0]
          have h0 := ih 0
          simpa using h0
      | succ a' =>
          have hl : (x :: xs).length - (a' + 1) = xs.length - a' := by
            simp [Nat.succ_sub_succ]
          rw [hl, List.drop_succ_cons, range'_map_getD_shift x xs (xs.length - a') a']
          exact ih a'

theorem innerSz_eq_prod_drop (dims : List Nat) (i : Nat) :
    innerSz dims i = (dims.drop (i + 1)).prod := by
  unfold innerSz
  rw [foldl_mul_shift (fun j => dims.getD j 0) _ 1, one_mul, range'_map_getD dims (i + 1)]

theorem flatIdx_eq_sum (dims idxs : List Nat) :
    flatIdx dims idxs =
      ((List.range idxs.length).map (fun i => innerSz dims i * idxs.getD i 0)).sum := by
  unfold flatIdx
  rw [foldl_add_shift (fun i => innerSz dims i * idxs.getD i 0) _ 0, Nat.zero_add]

/-- The double loop of `address_offset` computes exactly the row-major
flattening formula of the spec, whenever the index list has as many entries
as the dimension list. -/
theorem flatIdx_eq_rowMajorIndex : ∀ (idxs dims : List Nat),
    idxs.length = dims.length → flatIdx dims idxs = rowMajorIndex dims idxs := by
  intro idxs
  induction idxs with
  | nil =>
      intro dims _
      rw [flatIdx_eq_sum]
      cases dims <;> simp [rowMajorIndex]
  | cons i is ih =>
      intro dims h
      cases dims with
      | nil => simp at h
      | cons d ds =>
          rw [flatIdx_eq_sum]
          have hlen : (i :: is).length = is.length + 1 := by simp
          rw [hlen, List.range_succ_eq_map]
          simp only [List.map_cons, List.map_map, List.sum_cons]
          have hhead : innerSz (d :: ds) 0 * (i :: is).getD 0 0 = ds.prod * i := by
            rw [innerSz_eq_prod_drop]
            simp
          have htail :
              ((List.range is.length).map
                ((fun k => innerSz (d :: ds) k * (i :: is).getD k 0) ∘ (· + 1))).sum
                = flatIdx ds is := by
            rw [flatIdx_eq_sum]
            congr 1
            apply List.map_congr_left
            intro k _
            simp only [Function.comp]
            rw [innerSz_eq_prod_drop, innerSz_eq_prod_drop, List.getD_cons_succ]
            rfl
          rw [hhead, htail, ih ds (by simpa using h)]
          show ds.prod * i + rowMajorIndex ds is = rowMajorIndex (d :: ds) (i :: is)
          simp [rowMajorIndex, Nat.mul_comm]

/-- C1: for an addressable array node with dimensions `[S0,...,Sn-1]`, element
stride `stride` and fully known in-bounds current index `[I0,...,In-1]`,
`address_offset` exceeds `raw_address_offset` by exactly
`stride × Σ Ik×Π(S(k+1..n-1))` (row-major flattening, last dimension
fastest); for a non-array node `address_offset` equals `raw_address_offset`;
and for an array node with unknown current index `address_offset` fails with
the unbound-index `ValueError`. -/
theorem c1_address_offset_rowmajor (n : NodeOv) :
    (∀ ds l, n.inst.array_dimensions = some ds → n.current_idx = some l →
      l.length = ds.length → (∀ p ∈ l.zip ds, p.1 < p.2) →
      n.address_offset = .ok (n.raw_address_offset + n.inst.array_stride * rowMajorIndex ds l)) ∧
    (n.inst.is_array = false → n.address_offset = .ok n.raw_address_offset) ∧
    (n.inst.is_array = true → n.current_idx = none →
      n.address_offset =
        .error (.valueError "Index of array element must be known to derive address")) := by
  refine ⟨?_, ?_, ?_⟩
  · intro ds l hds hl hlen _hb
    have ha : n.inst.is_array = true := by simp [Component.is_array, hds]
    simp only [NodeOv.address_offset, ha, if_true, hl, hds, Option.getD_some]
    rw [flatIdx_eq_rowMajorIndex l ds hlen, Nat.mul_comm]
  · intro ha
    simp only [NodeOv.address_offset, ha]
    rfl
  · intro ha hi
    simp only [NodeOv.address_offset, ha, if_true, hi]

/-- Witness for C1 on the sample tree: the known-index array case
(dims `[2,3]`, stride 4, index `[1,2]`, raw offset 16 gives 36), the
non-array case and the unknown-index error case. -/
theorem c1_witness :
    (sampleArrOv (some [1, 2])).address_offset = .ok 36 ∧
    sampleRegOv.address_offset = .ok 8 ∧
    (sampleArrOv none).address_offset =
      .error (.valueError "Index of array element must be known to derive address") := by
  refine ⟨?_, ?_, ?_⟩
  · have h := (c1_address_offset_rowmajor (sampleArrOv (some [1, 2]))).1 [2, 3] [1, 2]
      rfl rfl (by decide) (by decide)
    rw [h]; rfl
  · exact (c1_address_offset_rowmajor sampleRegOv).2.1 rfl
  · exact (c1_address_offset_rowmajor (sampleArrOv none)).2.2 rfl rfl

theorem address_offset_of_known (n : NodeOv) (h : idxKnown n = true) :
    n.address_offset = .ok (offsetVal n) := by
  unfold NodeOv.address_offset offsetVal
  cases ha : n.inst.is_array with
  | false => simp [ha]
  | true =>
      cases hi : n.current_idx with
      | none => rw [idxKnown, ha, hi] at h; simp at h
      | some l => simp [ha, hi]

theorem address_offset_of_unknown (n : NodeOv) (ha : n.inst.is_array = true)
    (hi : n.current_idx = none) :
    n.address_offset =
      .error (.valueError "Index of array element must be known to derive address") := by
  simp only [NodeOv.address_offset, ha, if_true, hi]

theorem absolute_address_eq_none (inst : Component) (idx : Option (List Nat)) :
    (NodeOv.mk inst idx none).absolute_address = (NodeOv.mk inst idx none).address_offset := by
  rfl

theorem absolute_address_eq_some (inst : Component) (idx : Option (List Nat)) (p : NodeOv) :
    (NodeOv.mk inst idx (some p)).absolute_address =
      if p.inst.ctype ≠ CompType.root then
        p.absolute_address.bind fun pa =>
          (NodeOv.mk inst idx (some p)).address_offset.bind fun off => pure (pa + off)
      else (NodeOv.mk inst idx (some p)).address_offset := by
  rfl

theorem lineage_eq_none (inst : Component) (idx : Option (List Nat)) :
    (NodeOv.mk inst idx none).lineage = [NodeOv.mk inst idx none] := by
  rfl

theorem lineage_eq_some (inst : Component) (idx : Option (List Nat)) (p : NodeOv) :
    (NodeOv.mk inst idx (some p)).lineage =
      NodeOv.mk inst idx (some p) ::
        (if p.inst.ctype ≠ CompType.root then p.lineage else []) := by
  rfl

theorem absolute_address_shape : ∀ n : NodeOv,
    (∃ v, n.absolute_address = .ok v) ∨
      n.absolute_address =
        .error (.valueError "Index of array element must be known to derive address")
  | .mk inst idx parent => by
    have hself : ∀ m : NodeOv, (∃ v, m.address_offset = .ok v) ∨
        m.address_offset =
          .error (.valueError "Index of array element must be known to derive address") := by
      intro m
      unfold NodeOv.address_offset
      cases ha : m.inst.is_array with
      | false => exact .inl ⟨m.raw_address_offset, by simp⟩
      | true =>
          cases hi : m.current_idx with
          | none => exact .inr (by simp)
          | some l =>
              exact .inl ⟨m.raw_address_offset +
                flatIdx (m.inst.array_dimensions.getD []) l * m.inst.array_stride,
                by simp [ha, hi]⟩
    match parent with
    | none =>
      rw [absolute_address_eq_none]
      exact hself (NodeOv.mk inst idx none)
    | some p =>
      rw [absolute_address_eq_some]
      by_cases hr : p.inst.ctype ≠ CompType.root
      · rw [if_pos hr]
        rcases absolute_address_shape p with ⟨v, hv⟩ | hv
        · rw [hv]
          rcases hself (NodeOv.mk inst idx (some p)) with ⟨w, hw⟩ | hw
          · exact .inl ⟨v + w, by rw [hw]; rfl⟩
          · exact .inr (by rw [hw]; rfl)
        · rw [hv]
          exact .inr rfl
      · rw [if_neg hr]
        exact hself (NodeOv.mk inst idx (some p))

/-- C2: for an addressable node whose own and ancestors' array indices are
all known, `absolute_address` is the sum of `address_offset` over the node
and its ancestors up to the tree root; and when any array on that chain has
an unknown index, `absolute_address` fails with the unbound-index
`ValueError` instead of returning a value. -/
theorem c2_absolute_address : ∀ n : NodeOv,
    ((∀ m ∈ n.lineage, idxKnown m = true) →
      n.absolute_address = .ok ((n.lineage.map offsetVal).sum)) ∧
    ((∃ m ∈ n.lineage, m.inst.is_array = true ∧ m.current_idx = none) →
      n.absolute_address =
        .error (.valueError "Index of array element must be known to derive address"))
  | .mk inst idx parent => by
    constructor
    · intro hk
      match parent with
      | none =>
        rw [lineage_eq_none] at hk ⊢
        rw [absolute_address_eq_none,
          address_offset_of_known _ (hk _ (List.mem_singleton_self _))]
        simp
      | some p =>
        by_cases hr : p.inst.ctype ≠ CompType.root
        · rw [lineage_eq_some, if_pos hr] at hk ⊢
          have hp := (c2_absolute_address p).1 fun m hm => hk m (List.mem_cons_of_mem _ hm)
          have hs := address_offset_of_known (NodeOv.mk inst idx (some p))
            (hk _ (List.mem_cons_self _ _))
          rw [absolute_address_eq_some, if_pos hr, hp, hs]
          show Except.ok ((p.lineage.map offsetVal).sum + offsetVal (NodeOv.mk inst idx (some p)))
            = _
          rw [List.map_cons, List.sum_cons, Nat.add_comm]
        · rw [lineage_eq_some, if_neg hr] at hk ⊢
          rw [absolute_address_eq_some, if_neg hr,
            address_offset_of_known _ (hk _ (List.mem_cons_self _ _))]
          simp
    · rintro ⟨m, hm, hma, hmi⟩
      match parent with
      | none =>
        rw [lineage_eq_none] at hm
        rw [List.mem_singleton] at hm
        subst hm
        rw [absolute_address_eq_none]
        exact address_offset_of_unknown _ hma hmi
      | some p =>
        by_cases hr : p.inst.ctype ≠ CompType.root
        · rw [lineage_eq_some, if_pos hr] at hm
          rw [absolute_address_eq_some, if_pos hr]
          rcases List.mem_cons.mp hm with hm | hm
          · subst hm
            rcases absolute_address_shape p with ⟨v, hv⟩ | hv
            · rw [hv, address_offset_of_unknown _ hma hmi]
              rfl
            · rw [hv]
              rfl
          · rw [(c2_absolute_address p).2 ⟨m, hm, hma, hmi⟩]
            rfl
        · rw [lineage_eq_some, if_neg hr] at hm
          rcases List.mem_cons.mp hm with hm | hm
          · subst hm
            rw [absolute_address_eq_some, if_neg hr]
            exact address_offset_of_unknown _ hma hmi
          · simp at hm

/-- Witness for C2 on the sample tree: the fully known array element
`top.arr[1][2]` has absolute address 256 + 36 = 292, and the unknown-index
overlay of `arr` fails. -/
theorem c2_witness :
    (sampleArrOv (some [1, 2])).absolute_address = .ok 292 ∧
    (sampleArrOv none).absolute_address =
      .error (.valueError "Index of array element must be known to derive address") := by
  constructor
  · have h := (c2_absolute_address (sampleArrOv (some [1, 2]))).1 (by decide)
    rw [h]
    rfl
  · exact (c2_absolute_address (sampleArrOv none)).2
      ⟨sampleArrOv none, List.mem_cons_self _ _, rfl, rfl⟩

theorem compTotalSize_nonarray (c : Component) (h : c.is_array = false) :
    compTotalSize c = compSize c := by
  rw [compTotalSize.eq_def]
  show (if c.is_array = true then c.array_stride * c.n_elements else compSize c) = compSize c
  rw [if_neg (by simp [h])]

theorem compTotalSize_array (c : Component) (h : c.is_array = true) :
    compTotalSize c = c.array_stride * c.n_elements := by
  rw [compTotalSize.eq_def]
  show (if c.is_array = true then c.array_stride * c.n_elements else compSize c) = _
  rw [if_pos h]

/-- C9: for an addressable array node `total_size` is
`array_stride × n_elements` (the deliberately simplified approximation,
where `n_elements` is the product of the dimensions), and for a non-array
addressable node `total_size` equals `size`. -/
theorem c9_total_size (n : NodeOv) :
    (n.inst.is_array = true →
      n.total_size = n.inst.array_stride * (n.inst.array_dimensions.getD []).prod) ∧
    (n.inst.is_array = false → n.total_size = n.size) := by
  constructor
  · intro ha
    unfold NodeOv.total_size compTotalSize
    rw [if_pos ha]
    rfl
  · intro ha
    unfold NodeOv.total_size compTotalSize
    rw [if_neg (by simp [ha])]
    rfl

/-- Witness for C9: the 2x3 array with stride 4 has total size 24, and the
plain 64-bit register has total size equal to its size, 8. -/
theorem c9_witness :
    (sampleArrOv none).total_size = 24 ∧
    sampleRegOv.total_size = sampleRegOv.size ∧ sampleRegOv.size = 8 := by
  refine ⟨?_, (c9_total_size sampleRegOv).2 rfl, ?_⟩
  · have h := (c9_total_size (sampleArrOv none)).1 rfl
    rw [h]
    rfl
  · show compSize sampleReg = 8
    rw [compSize.eq_def]
    rfl

theorem groupSize_eq_none (c : Component) (h : c.children.getLast? = none) :
    groupSize c = 0 := by
  rw [groupSize.eq_def]
  show (match _h2 : c.children.getLast? with
    | none => 0
    | some last =>
        if isAddressableType last.ctype = true then last.addr_offset + compTotalSize last
        else 0) = 0
  split
  · rfl
  · next l hl => rw [h] at hl; cases hl

theorem groupSize_eq_some (c last : Component) (h : c.children.getLast? = some last) :
    groupSize c =
      if isAddressableType last.ctype then last.addr_offset + compTotalSize last else 0 := by
  rw [groupSize.eq_def]
  show (match _h2 : c.children.getLast? with
    | none => 0
    | some last =>
        if isAddressableType last.ctype = true then last.addr_offset + compTotalSize last
        else 0) = _
  split
  · next hl => rw [h] at hl; cases hl
  · next l hl => rw [h] at hl; cases hl; rfl

/-- C5: the `size` of a register-file or address-map node is
`get_group_node_size`; that value is 0 when the component has no children or
its last child is not addressable, and otherwise is the last child's
`raw_address_offset + total_size`, the latter computed on a fresh overlay of
the last child. -/
theorem c5_group_size (n : NodeOv) :
    ((n.inst.ctype = CompType.regfile ∨ n.inst.ctype = CompType.addrmap) →
      n.size = get_group_node_size n) ∧
    (n.inst.children = [] → get_group_node_size n = 0) ∧
    (∀ last, n.inst.children.getLast? = some last → isAddressableType last.ctype = false →
      get_group_node_size n = 0) ∧
    (∀ last, n.inst.children.getLast? = some last → isAddressableType last.ctype = true →
      get_group_node_size n =
        last.addr_offset + (NodeOv.mk last none (some n)).total_size) := by
  refine ⟨?_, ?_, ?_, ?_⟩
  · rintro (h | h) <;> simp [NodeOv.size, get_group_node_size, compSize, h]
  · intro hch
    unfold get_group_node_size
    rw [groupSize_eq_none _ (by rw [hch]; rfl)]
  · intro last hlast hna
    unfold get_group_node_size
    rw [groupSize_eq_some _ _ hlast, if_neg (by simp [hna])]
  · intro last hlast hadd
    unfold get_group_node_size
    rw [groupSize_eq_some _ _ hlast, if_pos (by simp [hadd])]
    rfl

/-- Witness for C5: the register file with children at offsets 0 (size 4) and
4 (size 8) has size 12; the empty register file has size 0; and a register
file ending in a signal has size 0. -/
theorem c5_witness :
    (NodeOv.mk sampleRf none none).size = 12 ∧
    (NodeOv.mk sampleRfEmpty none none).size = 0 ∧
    (NodeOv.mk sampleRfSig none none).size = 0 := by
  refine ⟨?_, ?_, ?_⟩
  · have h1 := (c5_group_size (NodeOv.mk sampleRf none none)).1 (Or.inl rfl)
    have h2 := (c5_group_size (NodeOv.mk sampleRf none none)).2.2.2
      (Component.mk .reg ['b'] 4 none 0 64 0 0 [] []) rfl rfl
    rw [h1, h2]
    show (4 : Nat) + compTotalSize (Component.mk .reg ['b'] 4 none 0 64 0 0 [] []) = 12
    rw [compTotalSize_nonarray (Component.mk .reg ['b'] 4 none 0 64 0 0 [] []) rfl,
      compSize.eq_def]
    rfl
  · have h1 := (c5_group_size (NodeOv.mk sampleRfEmpty none none)).1 (Or.inl rfl)
    have h2 := (c5_group_size (NodeOv.mk sampleRfEmpty none none)).2.1 rfl
    rw [h1, h2]
  · have h1 := (c5_group_size (NodeOv.mk sampleRfSig none none)).1 (Or.inl rfl)
    have h2 := (c5_group_size (NodeOv.mk sampleRfSig none none)).2.2.1
      (Component.mk .signal ['s'] 0 none 0 0 0 0 [] []) rfl rfl
    rw [h1, h2]

/-- C10: on any node whose parent chain reaches the tree root,
`owning_addrmap` returns the node itself when it is an address-map node (it
does not skip to an enclosing map), `None` at the root node, and otherwise
its parent's `owning_addrmap`; it never raises on such a node. -/
theorem owning_addrmap_eq (inst : Component) (idx : Option (List Nat))
    (parent : Option NodeOv) :
    (NodeOv.mk inst idx parent).owning_addrmap =
      if inst.ctype = CompType.addrmap then .ok (some (NodeOv.mk inst idx parent))
      else if inst.ctype = CompType.root then .ok none
      else
        match parent with
        | some p => p.owning_addrmap
        | none => .error .assertionError := by
  cases parent <;> rfl

theorem reachesRoot_eq (inst : Component) (idx : Option (List Nat))
    (parent : Option NodeOv) :
    (NodeOv.mk inst idx parent).reachesRoot =
      (decide (inst.ctype = CompType.root) ||
        match parent with
        | some p => p.reachesRoot
        | none => false) := by
  cases parent <;> rfl

/-- C10: on any node whose parent chain reaches the tree root,
`owning_addrmap` returns the node itself when it is an address-map node (it
does not skip to an enclosing map), `None` at the root node, and otherwise
its parent's `owning_addrmap`; it never raises on such a node. -/
theorem c10_owning_addrmap : ∀ n : NodeOv, n.reachesRoot = true →
    (n.inst.ctype = CompType.addrmap → n.owning_addrmap = .ok (some n)) ∧
    (n.inst.ctype = CompType.root → n.owning_addrmap = .ok none) ∧
    (n.inst.ctype ≠ CompType.addrmap → n.inst.ctype ≠ CompType.root →
      ∃ p, n.parent = some p ∧ n.owning_addrmap = p.owning_addrmap) ∧
    (∃ r, n.owning_addrmap = .ok r)
  | .mk inst idx parent => by
    intro hrr
    simp only [NodeOv.inst, NodeOv.parent]
    have heq := owning_addrmap_eq inst idx parent
    by_cases ha : inst.ctype = CompType.addrmap
    · refine ⟨fun _ => ?_, fun hr => ?_, fun hna _ => absurd ha hna, ?_⟩
      · rw [heq, if_pos ha]
      · rw [ha] at hr
        cases hr
      · exact ⟨some (NodeOv.mk inst idx parent), by rw [heq, if_pos ha]⟩
    · by_cases hro : inst.ctype = CompType.root
      · refine ⟨fun h => absurd h ha, fun _ => ?_, fun _ hnr => absurd hro hnr, ?_⟩
        · rw [heq, if_neg ha, if_pos hro]
        · exact ⟨none, by rw [heq, if_neg ha, if_pos hro]⟩
      · have hp : ∃ p, parent = some p ∧ p.reachesRoot = true := by
          cases parent with
          | some p =>
              refine ⟨p, rfl, ?_⟩
              have hb : (decide (inst.ctype = CompType.root) || p.reachesRoot) = true := by
                rw [← reachesRoot_eq inst idx (some p)]
                exact hrr
              simp only [Bool.or_eq_true, decide_eq_true_eq] at hb
              rcases hb with h | h
              · exact absurd h hro
              · exact h
          | none =>
              exfalso
              have hb : (decide (inst.ctype = CompType.root) || false) = true := by
                rw [← reachesRoot_eq inst idx none]
                exact hrr
              simp only [Bool.or_eq_true, decide_eq_true_eq] at hb
              rcases hb with h | h
              · exact absurd h hro
              · cases h
        rcases hp with ⟨p, hpe, hpr⟩
        subst hpe
        have hown : (NodeOv.mk inst idx (some p)).owning_addrmap = p.owning_addrmap := by
          rw [owning_addrmap_eq, if_neg ha, if_neg hro]
        refine ⟨fun h => absurd h ha, fun h => absurd h hro,
          fun _ _ => ⟨p, rfl, hown⟩, ?_⟩
        obtain ⟨r, hr⟩ := (c10_owning_addrmap p hpr).2.2.2
        exact ⟨r, by rw [hown, hr]⟩

/-- Witness for C10 on the sample tree: the addrmap `top` owns itself, the
root yields `None`, and the register delegates to its parent `top`. -/
theorem c10_witness :
    sampleTopOv.owning_addrmap = .ok (some sampleTopOv) ∧
    sampleRootOv.owning_addrmap = .ok none ∧
    sampleRegOv.owning_addrmap = .ok (some sampleTopOv) := by
  refine ⟨(c10_owning_addrmap sampleTopOv rfl).1 rfl,
    (c10_owning_addrmap sampleRootOv rfl).2.1 rfl, ?_⟩
  obtain ⟨p, hp, hown⟩ :=
    (c10_owning_addrmap sampleRegOv rfl).2.2.1 (by decide) (by decide)
  have hps : p = sampleTopOv := by
    have : some sampleTopOv = some p := hp
    cases this
    rfl
  subst hps
  rw [hown]
  exact (c10_owning_addrmap sampleTopOv rfl).1 rfl

theorem mem_productRanges : ∀ (ds l : List Nat),
    l ∈ productRanges ds ↔ List.Forall₂ (· < ·) l ds := by
  intro ds
  induction ds with
  | nil =>
      intro l
      simp [productRanges, List.forall₂_nil_right_iff]
  | cons d ds ih =>
      intro l
      simp only [productRanges, List.mem_flatMap, List.mem_map, List.mem_range,
        List.forall₂_cons_right_iff]
      constructor
      · rintro ⟨i, hi, t, ht, rfl⟩
        exact ⟨i, t, hi, (ih t).mp ht, rfl⟩
      · rintro ⟨i, t, hi, ht, rfl⟩
        exact ⟨i, hi, t, (ih t).mpr ht, rfl⟩

theorem length_productRanges : ∀ ds : List Nat,
    (productRanges ds).length = ds.prod := by
  intro ds
  induction ds with
  | nil => rfl
  | cons d ds ih =>
      simp only [productRanges, List.length_flatMap, List.map_map]
      have hc : (List.map (List.length ∘ fun i => (productRanges ds).map (fun t => i :: t))
          (List.range d)) = (List.range d).map (fun _ => ds.prod) := by
        apply List.map_congr_left
        intro i _
        simp [ih]
      rw [hc, List.map_const', List.sum_replicate, smul_eq_mul, List.prod_cons,
        List.length_range]

theorem nodup_productRanges : ∀ ds : List Nat, (productRanges ds).Nodup := by
  intro ds
  induction ds with
  | nil => simp [productRanges]
  | cons d ds ih =>
      show (List.flatMap (List.range d) _).Nodup
      rw [List.nodup_flatMap]
      constructor
      · intro i _
        exact ih.map fun a b h => by injection h
      · have hr := List.nodup_range d
        refine List.Pairwise.imp ?_ hr
        intro i j hij t hti htj
        rcases List.mem_map.mp hti with ⟨u, _, hu⟩
        rcases List.mem_map.mp htj with ⟨v, _, hv⟩
        rw [← hu] at hv
        injection hv with h1 _
        exact hij h1.symm

/-- C6: with `unroll` set, `children` expands an addressable array child into
exactly one overlay per element, in the order of the cartesian product of the
dimension ranges (last dimension fastest), each overlay carrying that
element's coordinates as its current index; the tuple list enumerates exactly
the in-bounds coordinate tuples, without repetition, and has one entry per
element; with `unroll` unset the child yields a single overlay with unknown
index. -/
theorem c6_children_unroll (n : NodeOv) (c : Component) (ds : List Nat)
    (hch : n.inst.children = [c]) (hp : ispresentOf c = true)
    (hat : isAddressableType c.ctype = true) (hd : c.array_dimensions = some ds) :
    n.children true true =
      (productRanges ds).map (fun idxs => NodeOv.mk c (some idxs) (some n)) ∧
    (n.children true true).length = ds.prod ∧
    (∀ l, l ∈ productRanges ds ↔ List.Forall₂ (· < ·) l ds) ∧
    (productRanges ds).Nodup ∧
    n.children false true = [NodeOv.mk c none (some n)] := by
  have ha : c.is_array = true := by simp [Component.is_array, hd]
  have hu : n.children true true =
      (productRanges ds).map (fun idxs => NodeOv.mk c (some idxs) (some n)) := by
    unfold NodeOv.children
    rw [hch]
    show (if true && !ispresentOf c then [] else childNodes n c true) ++ [] = _
    rw [List.append_nil, hp]
    show childNodes n c true = _
    unfold childNodes
    rw [if_pos (by simp [hat, ha]), hd]
    rfl
  refine ⟨hu, ?_, mem_productRanges ds, nodup_productRanges ds, ?_⟩
  · rw [hu, List.length_map, length_productRanges]
  · unfold NodeOv.children
    rw [hch]
    show (if true && !ispresentOf c then [] else childNodes n c false) ++ [] = _
    rw [List.append_nil, hp]
    show childNodes n c false = _
    unfold childNodes
    rw [if_neg (by simp)]

/-- Witness for C6: the 2x2 array yields exactly the four overlays indexed
`(0,0), (0,1), (1,0), (1,1)` in that order, and a single unknown-index
overlay without unroll. -/
theorem c6_witness :
    sampleGtopOv.children true true =
      [NodeOv.mk sampleGrid (some [0, 0]) (some sampleGtopOv),
       NodeOv.mk sampleGrid (some [0, 1]) (some sampleGtopOv),
       NodeOv.mk sampleGrid (some [1, 0]) (some sampleGtopOv),
       NodeOv.mk sampleGrid (some [1, 1]) (some sampleGtopOv)] ∧
    sampleGtopOv.children false true = [NodeOv.mk sampleGrid none (some sampleGtopOv)] := by
  have h := c6_children_unroll sampleGtopOv sampleGrid [2, 2] rfl rfl rfl rfl
  exact ⟨by rw [h.1]; rfl, h.2.2.2.2⟩

/-- Counterexample to C3 as stated: with no explicitly set value, no rule for
the requested name, but an override default supplied, `get_property` returns
the override and does not raise the unknown-property error — contradicting
the claim that the error is raised regardless of whether an override default
was supplied. -/
theorem c3_counterexample :
    NodeOv.get_property emptyRulesEnv sampleRegOv "bogus" (some (.pvInt 7)) =
      .ok (.pvInt 7) ∧
    NodeOv.get_property emptyRulesEnv sampleRegOv "bogus" (some (.pvInt 7)) ≠
      .error (.lookupError "Unknown property bogus") :=
  ⟨rfl, fun h => Except.noConfusion h⟩

/-- C3 (amended): `get_property` returns an explicitly set value (after the
reference-resolution and desc-dedent conversions); for an unset value with an
override default it returns the override verbatim with no rulebook lookup,
even when the name is unknown; for an unset value with no override it returns
the rulebook default when a rule binds to the component kind, and raises the
unknown-property `LookupError` when no rule exists or the rule does not bind
— the error arises only in this no-override branch. -/
theorem c3_get_property (env : Env) (n : NodeOv) (nm : String) (ovr : Option PropValue) :
    (∀ v, lookupProp n.inst.properties nm = some v →
      NodeOv.get_property env n nm ovr = .ok (convertExplicit env n nm v)) ∧
    (∀ d, lookupProp n.inst.properties nm = none → ovr = some d →
      NodeOv.get_property env n nm ovr = .ok d) ∧
    (lookupProp n.inst.properties nm = none → ovr = none →
      env.property_rules nm = none →
      NodeOv.get_property env n nm ovr =
        .error (.lookupError ("Unknown property " ++ nm))) ∧
    (∀ rule, lookupProp n.inst.properties nm = none → ovr = none →
      env.property_rules nm = some rule → n.inst.ctype ∉ rule.bindable_to →
      NodeOv.get_property env n nm ovr =
        .error (.lookupError ("Unknown property " ++ nm))) ∧
    (∀ rule, lookupProp n.inst.properties nm = none → ovr = none →
      env.property_rules nm = some rule → n.inst.ctype ∈ rule.bindable_to →
      NodeOv.get_property env n nm ovr = .ok (rule.get_default n)) := by
  refine ⟨?_, ?_, ?_, ?_, ?_⟩
  · intro v hv
    unfold NodeOv.get_property
    rw [hv]
    cases v <;> dsimp only [convertExplicit] <;> try rfl
    split <;> rfl
  · intro d hn ho
    unfold NodeOv.get_property
    rw [hn, ho]
  · intro hn ho hr
    unfold NodeOv.get_property
    rw [hn, ho, hr]
  · intro rule hn ho hr hb
    unfold NodeOv.get_property
    rw [hn, ho, hr]
    dsimp only
    rw [if_neg hb]
  · intro rule hn ho hr hb
    unfold NodeOv.get_property
    rw [hn, ho, hr]
    dsimp only
    rw [if_pos hb]

/-- Witness for C3 (amended), one instance per branch: explicit value,
override on an unknown name, unknown name without override, a rule not
binding to the kind, and a binding rule's computed default. -/
theorem c3_witness :
    NodeOv.get_property sampleEnv samplePropOv "x" none = .ok (.pvInt 3) ∧
    NodeOv.get_property sampleEnv samplePropOv "bogus" (some (.pvStr "d")) =
      .ok (.pvStr "d") ∧
    NodeOv.get_property sampleEnv samplePropOv "bogus" none =
      .error (.lookupError "Unknown property bogus") ∧
    NodeOv.get_property sampleEnv sampleSigOv "p1" none =
      .error (.lookupError "Unknown property p1") ∧
    NodeOv.get_property sampleEnv samplePropOv "p1" none = .ok (.pvInt 5) := by
  refine ⟨?_, ?_, ?_, ?_, ?_⟩
  · exact (c3_get_property sampleEnv samplePropOv "x" none).1 (.pvInt 3) rfl
  · exact (c3_get_property sampleEnv samplePropOv "bogus"
      (some (.pvStr "d"))).2.1 (.pvStr "d") rfl rfl
  · exact (c3_get_property sampleEnv samplePropOv "bogus" none).2.2.1 rfl rfl rfl
  · exact (c3_get_property sampleEnv sampleSigOv "p1" none).2.2.2.1 sampleRule
      rfl rfl rfl (by decide)
  · exact (c3_get_property sampleEnv samplePropOv "p1" none).2.2.2.2 sampleRule
      rfl rfl rfl (by decide)

/-!
### Decimal printer lemmas
-/

theorem natToDecAux_irrel : ∀ (fuel fuel' n : Nat) (acc : List Char), n < fuel → n < fuel' →
    natToDecAux fuel n acc = natToDecAux fuel' n acc := by
  intro fuel
  induction fuel with
  | zero => intro fuel' n acc h _; exact absurd h (Nat.not_lt_zero n)
  | succ f ih =>
      intro fuel' n acc h h'
      cases fuel' with
      | zero => exact absurd h' (Nat.not_lt_zero n)
      | succ f' =>
          show (if n < 10 then digitChar n :: acc
              else natToDecAux f (n / 10) (digitChar (n % 10) :: acc)) =
            (if n < 10 then digitChar n :: acc
              else natToDecAux f' (n / 10) (digitChar (n % 10) :: acc))
          by_cases h10 : n < 10
          · rw [if_pos h10, if_pos h10]
          · rw [if_neg h10, if_neg h10]
            have hn0 : 0 < n := by omega
            have hlt : n / 10 < n := Nat.div_lt_self hn0 (by omega)
            exact ih f' (n / 10) _ (by omega) (by omega)

theorem natToDecAux_append : ∀ (fuel n : Nat) (acc : List Char), n < fuel →
    natToDecAux fuel n acc = natToDecAux fuel n [] ++ acc := by
  intro fuel
  induction fuel with
  | zero => intro n acc h; exact absurd h (Nat.not_lt_zero n)
  | succ f ih =>
      intro n acc h
      show (if n < 10 then digitChar n :: acc
          else natToDecAux f (n / 10) (digitChar (n % 10) :: acc)) =
        (if n < 10 then digitChar n :: ([] : List Char)
          else natToDecAux f (n / 10) (digitChar (n % 10) :: [])) ++ acc
      by_cases h10 : n < 10
      · rw [if_pos h10, if_pos h10]
        rfl
      · rw [if_neg h10, if_neg h10]
        have hn0 : 0 < n := by omega
        have hlt : n / 10 < n := Nat.div_lt_self hn0 (by omega)
        rw [ih (n / 10) (digitChar (n % 10) :: acc) (by omega),
          ih (n / 10) [digitChar (n % 10)] (by omega), List.append_assoc]
        rfl

theorem natToDec_lt (n : Nat) (h : n < 10) : natToDec n = [digitChar n] := by
  show (if n < 10 then digitChar n :: ([] : List Char)
      else natToDecAux n (n / 10) (digitChar (n % 10) :: [])) = [digitChar n]
  rw [if_pos h]

theorem natToDec_ge (n : Nat) (h : 10 ≤ n) :
    natToDec n = natToDec (n / 10) ++ [digitChar (n % 10)] := by
  have hn0 : 0 < n := by omega
  have hlt : n / 10 < n := Nat.div_lt_self hn0 (by omega)
  show (if n < 10 then digitChar n :: ([] : List Char)
      else natToDecAux n (n / 10) (digitChar (n % 10) :: [])) = _
  rw [if_neg (by omega)]
  rw [natToDecAux_irrel n (n / 10 + 1) (n / 10) _ (by omega) (by omega)]
  rw [natToDecAux_append (n / 10 + 1) (n / 10) _ (by omega)]
  rfl

theorem digitChar_isDigit (d : Nat) (h : d < 10) : (digitChar d).isDigit = true := by
  interval_cases d <;> decide

theorem digitVal_digitChar (d : Nat) (h : d < 10) : digitVal (digitChar d) = d := by
  interval_cases d <;> decide

theorem digitChar_ne_zero (d : Nat) (h1 : d < 10) (h2 : d ≠ 0) : digitChar d ≠ '0' := by
  interval_cases d
  · exact absurd rfl h2
  all_goals decide

theorem natToDec_digits (n : Nat) : ∀ c ∈ natToDec n, c.isDigit = true := by
  induction n using Nat.strong_induction_on with
  | _ n ih =>
      by_cases h : n < 10
      · rw [natToDec_lt n h]
        intro c hc
        rw [List.mem_singleton] at hc
        subst hc
        exact digitChar_isDigit n h
      · rw [natToDec_ge n (by omega)]
        intro c hc
        rcases List.mem_append.mp hc with hc | hc
        · exact ih (n / 10) (Nat.div_lt_self (by omega) (by omega)) c hc
        · rw [List.mem_singleton] at hc
          subst hc
          exact digitChar_isDigit _ (Nat.mod_lt n (by omega))

theorem natToDec_ne_nil (n : Nat) : natToDec n ≠ [] := by
  by_cases h : n < 10
  · rw [natToDec_lt n h]
    simp
  · rw [natToDec_ge n (by omega)]
    simp

theorem natToDec_head_ne_zero : ∀ n : Nat, n ≠ 0 → (natToDec n).head? ≠ some '0' := by
  intro n
  induction n using Nat.strong_induction_on with
  | _ n ih =>
      intro hn0
      by_cases h : n < 10
      · rw [natToDec_lt n h]
        intro hc
        rw [List.head?_cons, Option.some.injEq] at hc
        exact digitChar_ne_zero n h hn0 hc
      · rw [natToDec_ge n (by omega)]
        rcases hx : natToDec (n / 10) with _ | ⟨a, t⟩
        · exact absurd hx (natToDec_ne_nil _)
        · have hih := ih (n / 10) (Nat.div_lt_self (by omega) (by omega)) (by omega)
          rw [hx, List.head?_cons] at hih
          simpa using hih

theorem decValue_natToDec : ∀ n : Nat, decValue (natToDec n) = n := by
  intro n
  induction n using Nat.strong_induction_on with
  | _ n ih =>
      by_cases h : n < 10
      · rw [natToDec_lt n h]
        show 0 * 10 + digitVal (digitChar n) = n
        rw [digitVal_digitChar n h]
        omega
      · rw [natToDec_ge n (by omega)]
        unfold decValue
        rw [List.foldl_append]
        have hih := ih (n / 10) (Nat.div_lt_self (by omega) (by omega))
        unfold decValue at hih
        rw [hih]
        show n / 10 * 10 + digitVal (digitChar (n % 10)) = n
        rw [digitVal_digitChar _ (Nat.mod_lt n (by omega))]
        omega

theorem pyIntBase0_natToDec (n : Nat) : pyIntBase0 (natToDec n) = some n := by
  have hd : (natToDec n).all Char.isDigit = true :=
    List.all_eq_true.mpr fun c hc => natToDec_digits n c hc
  have hne : (natToDec n).isEmpty = false := by
    rcases hx : natToDec n with _ | ⟨a, t⟩
    · exact absurd hx (natToDec_ne_nil _)
    · rfl
  unfold pyIntBase0
  rw [if_pos (by rw [hne, hd]; rfl)]
  by_cases hn : n = 0
  · subst hn
    rw [if_neg (by rw [natToDec_lt 0 (by omega)]; decide)]
    rw [natToDec_lt 0 (by omega)]
    rfl
  · rw [if_neg ?hc]
    · rw [decValue_natToDec]
    case hc =>
      intro hcontra
      simp only [Bool.and_eq_true, decide_eq_true_eq] at hcontra
      exact natToDec_head_ne_zero n hn hcontra.1

/-!
### Character class and parsing lemmas
-/

theorem isDigit_wordChar (c : Char) (h : c.isDigit = true) : wordChar c = true := by
  simp [wordChar, Char.isAlphanum, h]

theorem isDigit_ne_dot (c : Char) (h : c.isDigit = true) : c ≠ '.' := by
  intro he
  subst he
  exact absurd h (by decide)

theorem isDigit_ne_rbracket (c : Char) (h : c.isDigit = true) : c ≠ ']' := by
  intro he
  subst he
  exact absurd h (by decide)

theorem wordChar_ne_dot (c : Char) (h : wordChar c = true) : c ≠ '.' := by
  intro he
  subst he
  exact absurd h (by decide)

theorem wordChar_ne_caret (c : Char) (h : wordChar c = true) : c ≠ '^' := by
  intro he
  subst he
  exact absurd h (by decide)

theorem wordChar_ne_lbracket (c : Char) (h : wordChar c = true) : c ≠ '[' := by
  intro he
  subst he
  exact absurd h (by decide)

theorem takeWhile_append_all (p : Char → Bool) :
    ∀ (xs ys : List Char), (∀ c ∈ xs, p c = true) →
      (xs ++ ys).takeWhile p = xs ++ ys.takeWhile p ∧
        (xs ++ ys).dropWhile p = ys.dropWhile p := by
  intro xs
  induction xs with
  | nil => intro ys _; exact ⟨rfl, rfl⟩
  | cons x t ih =>
      intro ys hall
      have hx : p x = true := hall x (List.mem_cons_self _ _)
      have iht := ih ys fun c hc => hall c (List.mem_cons_of_mem _ hc)
      constructor
      · show List.takeWhile p (x :: (t ++ ys)) = _
        rw [List.takeWhile_cons, hx]
        simp only [if_true]
        rw [iht.1]
        rfl
      · show List.dropWhile p (x :: (t ++ ys)) = _
        rw [List.dropWhile_cons]
        simp only [hx, if_true]
        exact iht.2

theorem bracketShape_natToDec (i : Nat) : bracketShape (natToDec i) = true := by
  have hd : (natToDec i).all Char.isDigit = true :=
    List.all_eq_true.mpr fun c hc => natToDec_digits i c hc
  have hne : (natToDec i).isEmpty = false := by
    rcases hx : natToDec i with _ | ⟨a, t⟩
    · exact absurd hx (natToDec_ne_nil _)
    · rfl
  unfold bracketShape
  rw [hne, hd]
  rfl

theorem parseSuffixAux_nil_none (done : List (List Char)) :
    parseSuffixAux [] none done = some done.reverse := rfl

theorem parseSuffixAux_cons_none (c : Char) (rest : List Char) (done : List (List Char)) :
    parseSuffixAux (c :: rest) none done =
      if c = '[' then parseSuffixAux rest (some []) done else none := rfl

theorem parseSuffixAux_cons_some (c : Char) (rest cur : List Char)
    (done : List (List Char)) :
    parseSuffixAux (c :: rest) (some cur) done =
      if c = ']' then
        if bracketShape cur.reverse then parseSuffixAux rest none (cur.reverse :: done)
        else none
      else parseSuffixAux rest (some (c :: cur)) done := rfl

theorem parseSuffixAux_body (rest : List Char) (done : List (List Char)) :
    ∀ (body cur : List Char), (∀ c ∈ body, c ≠ ']') →
      parseSuffixAux (body ++ ']' :: rest) (some cur) done =
        (if bracketShape (cur.reverse ++ body) then
          parseSuffixAux rest none ((cur.reverse ++ body) :: done)
        else none) := by
  intro body
  induction body with
  | nil =>
      intro cur _
      show parseSuffixAux (']' :: rest) (some cur) done = _
      rw [parseSuffixAux_cons_some, if_pos rfl]
      simp only [List.append_nil]
  | cons c body ih =>
      intro cur hne
      have hc : c ≠ ']' := hne c (List.mem_cons_self _ _)
      show parseSuffixAux (c :: (body ++ ']' :: rest)) (some cur) done = _
      rw [parseSuffixAux_cons_some, if_neg hc]
      rw [ih (c :: cur) fun d hd => hne d (List.mem_cons_of_mem _ hd)]
      have hrw : (c :: cur).reverse ++ body = cur.reverse ++ c :: body := by
        simp
      rw [hrw]

theorem parseSuffixAux_printed :
    ∀ (xs : List Nat) (done : List (List Char)),
      parseSuffixAux (xs.flatMap fun i => '[' :: (natToDec i ++ [']'])) none done =
        some (done.reverse ++ xs.map natToDec) := by
  intro xs
  induction xs with
  | nil =>
      intro done
      simp [parseSuffixAux]
  | cons i xs ih =>
      intro done
      have hsh : ('[' :: (natToDec i ++ [']'])) ++
          (xs.flatMap fun j => '[' :: (natToDec j ++ [']'])) =
          '[' :: (natToDec i ++ ']' ::
            (xs.flatMap fun j => '[' :: (natToDec j ++ [']']))) := by
        simp
      rw [List.flatMap_cons, hsh]
      rw [parseSuffixAux_cons_none, if_pos rfl]
      rw [parseSuffixAux_body _ done (natToDec i) []
        (fun c hc => isDigit_ne_rbracket c (natToDec_digits i c hc))]
      rw [List.reverse_nil, List.nil_append, if_pos (bracketShape_natToDec i), ih]
      simp

theorem parseSuffix_printed (xs : List Nat) :
    parseSuffix (xs.flatMap fun i => '[' :: (natToDec i ++ [']'])) =
      some (xs.map natToDec) := by
  unfold parseSuffix
  rw [parseSuffixAux_printed xs []]
  rfl

theorem segMatch_printed (nm : List Char) (xs : List Nat) (hnm : goodNameB nm = true) :
    segMatch (nm ++ (xs.flatMap fun i => '[' :: (natToDec i ++ [']']))) =
      some (nm, xs.map natToDec) := by
  have hword : ∀ c ∈ nm, wordChar c = true := by
    have := (Bool.and_eq_true _ _).mp hnm
    exact fun c hc => List.all_eq_true.mp this.2 c hc
  have hsuffix : (xs.flatMap fun i => '[' :: (natToDec i ++ [']'])).takeWhile wordChar = [] := by
    cases xs with
    | nil => rfl
    | cons i xs =>
        rw [List.flatMap_cons]
        show List.takeWhile wordChar ('[' :: _) = []
        rw [List.takeWhile_cons]
        simp [wordChar]
  have htw := takeWhile_append_all wordChar nm
    (xs.flatMap fun i => '[' :: (natToDec i ++ [']'])) hword
  unfold segMatch
  rw [htw.1, hsuffix, List.append_nil, htw.2]
  have hnmne : nm.isEmpty = false := by
    cases nm with
    | nil => exact absurd hnm (by decide)
    | cons a t => rfl
  rw [if_neg (by rw [hnmne]; decide)]
  have hdw : (xs.flatMap fun i => '[' :: (natToDec i ++ [']'])).dropWhile wordChar =
      xs.flatMap fun i => '[' :: (natToDec i ++ [']']) := by
    cases xs with
    | nil => rfl
    | cons i xs =>
        rw [List.flatMap_cons]
        show List.dropWhile wordChar ('[' :: _) = _
        rw [List.dropWhile_cons]
        simp [wordChar]
  rw [hdw, parseSuffix_printed xs]
  rfl

theorem mapM_pyIntBase0_natToDec : ∀ xs : List Nat,
    (xs.map natToDec).mapM pyIntBase0 = some xs := by
  intro xs
  induction xs with
  | nil => rfl
  | cons i xs ih =>
      rw [List.map_cons, List.mapM_cons, pyIntBase0_natToDec, ih]
      rfl

/-!
### Tree well-formedness and name lookup
-/

theorem find?_name_nodup : ∀ (l : List Component) (i : Nat) (c : Component),
    (l.map Component.inst_name).Nodup → l[i]? = some c →
    l.find? (fun ch => ch.inst_name = c.inst_name) = some c := by
  intro l
  induction l with
  | nil => intro i c _ hg; simp at hg
  | cons a t ih =>
      intro i c hnd hg
      cases i with
      | zero =>
          rw [List.getElem?_cons_zero, Option.some.injEq] at hg
          subst hg
          simp [List.find?_cons]
      | succ j =>
          rw [List.getElem?_cons_succ] at hg
          have hmem : c ∈ t := by
            obtain ⟨hlt, hEq⟩ := List.getElem?_eq_some_iff.mp hg
            exact hEq ▸ t.getElem_mem hlt
          rw [List.find?_cons]
          by_cases hp : a.inst_name = c.inst_name
          · exfalso
            rw [List.map_cons, List.nodup_cons] at hnd
            exact hnd.1 (hp ▸ List.mem_map_of_mem Component.inst_name hmem)
          · have hd : (decide (a.inst_name = c.inst_name)) = false := by
              simpa using hp
            rw [hd]
            exact ih j c (by rw [List.map_cons, List.nodup_cons] at hnd; exact hnd.2) hg

theorem wfChildrenB_spec : ∀ l : List Component, wfChildrenB l = true →
    ∀ ch ∈ l, goodNameB ch.inst_name = true ∧ ch.ctype ≠ CompType.root ∧
      (∀ ds, ch.array_dimensions = some ds →
        isAddressableType ch.ctype = true ∧ ds ≠ []) ∧
      wfCompB ch = true := by
  intro l
  induction l with
  | nil => intro _ ch hch; simp at hch
  | cons a rest ih =>
      intro h ch hch
      have he : wfChildrenB (a :: rest) =
          (goodNameB a.inst_name && decide (a.ctype ≠ CompType.root) &&
            (match a.array_dimensions with
             | some ds => isAddressableType a.ctype && !ds.isEmpty
             | none => true) &&
            wfCompB a && wfChildrenB rest) := rfl
      rw [he] at h
      rcases (Bool.and_eq_true _ _).mp h with ⟨h1, hrest⟩
      rcases (Bool.and_eq_true _ _).mp h1 with ⟨h2, hwfa⟩
      rcases (Bool.and_eq_true _ _).mp h2 with ⟨h3, hdims⟩
      rcases (Bool.and_eq_true _ _).mp h3 with ⟨hgood, hroot⟩
      rcases List.mem_cons.mp hch with rfl | hch
      · refine ⟨hgood, of_decide_eq_true hroot, ?_, hwfa⟩
        intro ds hds
        rw [hds] at hdims
        rcases (Bool.and_eq_true _ _).mp hdims with ⟨haddr, hne⟩
        refine ⟨haddr, ?_⟩
        cases ds with
        | nil => exact absurd hne (by decide)
        | cons x t => simp
      · exact ih hrest ch hch

theorem wfCompB_spec (c : Component) (h : wfCompB c = true) :
    (c.children.map Component.inst_name).Nodup ∧
      ∀ ch ∈ c.children, goodNameB ch.inst_name = true ∧ ch.ctype ≠ CompType.root ∧
        (∀ ds, ch.array_dimensions = some ds →
          isAddressableType ch.ctype = true ∧ ds ≠ []) ∧
        wfCompB ch = true := by
  cases c with
  | mk t nm a d s r m e p children =>
      have he : wfCompB (Component.mk t nm a d s r m e p children) =
          (decide ((children.map Component.inst_name).Nodup) && wfChildrenB children) := rfl
      rw [he] at h
      rcases (Bool.and_eq_true _ _).mp h with ⟨h1, h2⟩
      constructor
      · show (children.map Component.inst_name).Nodup
        exact of_decide_eq_true h1
      · show ∀ ch ∈ children, _
        exact wfChildrenB_spec children h2

/-!
### Path segment printing along a descent
-/

theorem get_path_segments_none (inst : Component) (idx : Option (List Nat)) :
    (NodeOv.mk inst idx none).get_path_segments =
      if inst.ctype ≠ CompType.root then [pathSegmentOf (NodeOv.mk inst idx none)]
      else [] := rfl

theorem get_path_segments_some (inst : Component) (idx : Option (List Nat)) (p : NodeOv) :
    (NodeOv.mk inst idx (some p)).get_path_segments =
      if p.inst.ctype ≠ CompType.root then
        p.get_path_segments ++ [pathSegmentOf (NodeOv.mk inst idx (some p))]
      else
        if inst.ctype ≠ CompType.root then [pathSegmentOf (NodeOv.mk inst idx (some p))]
        else [] := rfl

theorem stepsSegs_cons (c ch : Component) (st : Step) (rest : List Step)
    (h : c.children[st.pos]? = some ch) :
    stepsSegs c (st :: rest) = segPrint ch st.idx :: stepsSegs ch rest := by
  have he : stepsSegs c (st :: rest) =
      match c.children[st.pos]? with
      | none => []
      | some ch2 => segPrint ch2 st.idx :: stepsSegs ch2 rest := rfl
  rw [he, h]

theorem wfStepsB_cons (c : Component) (st : Step) (rest : List Step)
    (h : wfStepsB c (st :: rest) = true) :
    ∃ ch, c.children[st.pos]? = some ch ∧
      (∀ l, st.idx = some l →
        ch.is_array = true ∧ l.length = (ch.array_dimensions.getD []).length ∧
          ∀ p ∈ l.zip (ch.array_dimensions.getD []), p.1 < p.2) ∧
      wfStepsB ch rest = true := by
  unfold wfStepsB at h
  rcases hg : c.children[st.pos]? with _ | ch
  · rw [hg] at h
    cases h
  · rw [hg] at h
    rcases (Bool.and_eq_true _ _).mp h with ⟨h1, h2⟩
    refine ⟨ch, rfl, ?_, h2⟩
    intro l hl
    rw [hl] at h1
    rcases (Bool.and_eq_true _ _).mp h1 with ⟨h3, h4⟩
    rcases (Bool.and_eq_true _ _).mp h3 with ⟨h5, h6⟩
    exact ⟨h5, of_decide_eq_true h6,
      fun p hp => of_decide_eq_true (List.all_eq_true.mp h4 p hp)⟩

theorem knownStepsB_cons (c ch : Component) (st : Step) (rest : List Step)
    (hg : c.children[st.pos]? = some ch)
    (h : knownStepsB c (st :: rest) = true) :
    (ch.is_array = true → st.idx.isSome = true) ∧ knownStepsB ch rest = true := by
  unfold knownStepsB at h
  rw [hg] at h
  rcases (Bool.and_eq_true _ _).mp h with ⟨h1, h2⟩
  refine ⟨?_, h2⟩
  intro ha
  rcases (Bool.or_eq_true _ _).mp h1 with h | h
  · rw [ha] at h
    cases h
  · exact h

theorem segments_descend : ∀ (steps : List Step) (a n : NodeOv),
    wfCompB a.inst = true → wfStepsB a.inst steps = true →
    (a.inst.ctype = CompType.root → a.get_path_segments = []) →
    descendNode a steps = some n →
    n.get_path_segments = a.get_path_segments ++ stepsSegs a.inst steps := by
  intro steps
  induction steps with
  | nil =>
      intro a n _ _ _ hd
      rw [show descendNode a [] = some a from rfl, Option.some.injEq] at hd
      subst hd
      simp [stepsSegs]
  | cons st rest ih =>
      intro a n hwf hws hroot hd
      obtain ⟨ch, hg, _hidx, hws2⟩ := wfStepsB_cons a.inst st rest hws
      have hspec := wfCompB_spec a.inst hwf
      have hchmem : ch ∈ a.inst.children := by
        obtain ⟨hlt, hEq⟩ := List.getElem?_eq_some_iff.mp hg
        exact hEq ▸ (a.inst.children).getElem_mem hlt
      obtain ⟨_, hchroot, _, hchwf⟩ := hspec.2 ch hchmem
      have hd2 : descendNode (NodeOv.mk ch st.idx (some a)) rest = some n := by
        rw [show descendNode a (st :: rest) =
          (match a.inst.children[st.pos]? with
           | none => none
           | some c => descendNode (NodeOv.mk c st.idx (some a)) rest) from rfl, hg] at hd
        exact hd
      have hchild_segs : (NodeOv.mk ch st.idx (some a)).get_path_segments =
          a.get_path_segments ++ [segPrint ch st.idx] := by
        rw [get_path_segments_some]
        by_cases hr : a.inst.ctype ≠ CompType.root
        · rw [if_pos hr]
          rfl
        · rw [if_neg hr]
          rw [not_not] at hr
          rw [hroot hr]
          rw [if_pos (by simpa [NodeOv.inst] using hchroot)]
          rfl
      have := ih (NodeOv.mk ch st.idx (some a)) n
        (by simpa [NodeOv.inst] using hchwf)
        (by simpa [NodeOv.inst] using hws2)
        (fun hcr => absurd (by simpa [NodeOv.inst] using hcr) hchroot)
        hd2
      rw [this, hchild_segs, stepsSegs_cons a.inst ch st rest hg]
      simp [NodeOv.inst]

theorem stepsSegs_length : ∀ (steps : List Step) (c : Component),
    wfStepsB c steps = true → (stepsSegs c steps).length = steps.length := by
  intro steps
  induction steps with
  | nil => intro c _; rfl
  | cons st rest ih =>
      intro c h
      obtain ⟨ch, hg, _, h2⟩ := wfStepsB_cons c st rest h
      rw [stepsSegs_cons c ch st rest hg]
      simp [ih ch h2]

theorem segPrint_no_dot (ch : Component) (idx : Option (List Nat))
    (h : goodNameB ch.inst_name = true) :
    ∀ c ∈ segPrint ch idx, c ≠ '.' := by
  have hname : ∀ c ∈ ch.inst_name, c ≠ '.' := fun c hc =>
    wordChar_ne_dot c (List.all_eq_true.mp ((Bool.and_eq_true _ _).mp h).2 c hc)
  intro c hc
  unfold segPrint at hc
  by_cases harr : (isAddressableType ch.ctype && ch.is_array) = true
  · rw [if_pos harr] at hc
    cases hidx : idx with
    | none =>
        rw [hidx] at hc
        rcases List.mem_append.mp hc with hc | hc
        · exact hname c hc
        · rcases List.mem_flatMap.mp hc with ⟨d, _, hd⟩
          simp only [List.mem_cons, List.mem_singleton, List.not_mem_nil, or_false] at hd
          rcases hd with rfl | rfl <;> decide
    | some l =>
        rw [hidx] at hc
        rcases List.mem_append.mp hc with hc | hc
        · exact hname c hc
        · rcases List.mem_flatMap.mp hc with ⟨p, _, hp⟩
          rcases List.mem_cons.mp hp with rfl | h1
          · decide
          · rcases List.mem_append.mp h1 with h2 | h2
            · exact isDigit_ne_dot c (natToDec_digits p.1 c h2)
            · rw [List.mem_singleton] at h2
              subst h2
              decide
  · rw [if_neg harr] at hc
    exact hname c hc

theorem splitOnDot_cons (c : Char) (cs : List Char) :
    splitOnDot (c :: cs) =
      if c = '.' then [] :: splitOnDot cs
      else
        match splitOnDot cs with
        | [] => [[c]]
        | s :: rest => (c :: s) :: rest := rfl

theorem splitOnDot_no_dot : ∀ s : List Char, (∀ c ∈ s, c ≠ '.') →
    splitOnDot s = [s] := by
  intro s
  induction s with
  | nil => intro _; rfl
  | cons c cs ih =>
      intro h
      rw [splitOnDot_cons, if_neg (h c (List.mem_cons_self _ _)),
        ih fun d hd => h d (List.mem_cons_of_mem _ hd)]

theorem splitOnDot_append (s t : List Char) (h : ∀ c ∈ s, c ≠ '.') :
    splitOnDot (s ++ '.' :: t) = s :: splitOnDot t := by
  induction s with
  | nil =>
      show splitOnDot ('.' :: t) = [] :: splitOnDot t
      rw [splitOnDot_cons, if_pos rfl]
  | cons c cs ih =>
      show splitOnDot (c :: (cs ++ '.' :: t)) = _
      rw [splitOnDot_cons, if_neg (h c (List.mem_cons_self _ _)),
        ih fun d hd => h d (List.mem_cons_of_mem _ hd)]

theorem splitOnDot_joinDot : ∀ segs : List (List Char), segs ≠ [] →
    (∀ s ∈ segs, ∀ c ∈ s, c ≠ '.') → splitOnDot (joinDot segs) = segs := by
  intro segs
  induction segs with
  | nil => intro h _; exact absurd rfl h
  | cons s ss ih =>
      intro _ hall
      cases ss with
      | nil =>
          show splitOnDot s = [s]
          exact splitOnDot_no_dot s (hall s (List.mem_cons_self _ _))
      | cons s2 ss2 =>
          show splitOnDot (s ++ '.' :: joinDot (s2 :: ss2)) = _
          rw [splitOnDot_append s _ (hall s (List.mem_cons_self _ _))]
          rw [ih (by simp) fun u hu => hall u (List.mem_cons_of_mem _ hu)]

/-!
### Resolution of printed paths
-/

theorem findOne_printed (a : NodeOv) (ch : Component) (st : Step)
    (hwf : wfCompB a.inst = true)
    (hg : a.inst.children[st.pos]? = some ch)
    (hidx : ∀ l, st.idx = some l → ch.is_array = true ∧
        l.length = (ch.array_dimensions.getD []).length ∧
        ∀ p ∈ l.zip (ch.array_dimensions.getD []), p.1 < p.2)
    (hknown : ch.is_array = true → st.idx.isSome = true) :
    findOne a (segPrint ch st.idx) = .ok (some (NodeOv.mk ch st.idx (some a))) := by
  have hspec := wfCompB_spec a.inst hwf
  have hchmem : ch ∈ a.inst.children := by
    obtain ⟨hlt, hEq⟩ := List.getElem?_eq_some_iff.mp hg
    exact hEq ▸ (a.inst.children).getElem_mem hlt
  obtain ⟨hgood, _hchroot, hdims, _⟩ := hspec.2 ch hchmem
  have hfind : a.inst.comp_child_by_name ch.inst_name = some ch :=
    find?_name_nodup a.inst.children st.pos ch hspec.1 hg
  by_cases harr : ch.is_array = true
  · obtain ⟨l, hl⟩ := Option.isSome_iff_exists.mp (hknown harr)
    obtain ⟨ds, hds⟩ := Option.isSome_iff_exists.mp harr
    obtain ⟨haddr, hdsnil⟩ := hdims ds hds
    obtain ⟨_, hlen, hbounds⟩ := hidx l hl
    have hgetd : ch.array_dimensions.getD [] = ds := by rw [hds]; rfl
    rw [hgetd] at hlen hbounds
    have hlnil : l.isEmpty = false := by
      cases l with
      | nil =>
          rw [show ([] : List Nat).length = 0 from rfl] at hlen
          exact absurd hlen.symm (by simpa using hdsnil)
      | cons x t => rfl
    rw [hl]
    have hflat : ((l.zip (ch.array_dimensions.getD [])).flatMap
        fun p => '[' :: (natToDec p.1 ++ [']'])) =
        l.flatMap fun i => '[' :: (natToDec i ++ [']']) := by
      rw [hgetd]
      conv_rhs => rw [← List.map_fst_zip l ds (le_of_eq hlen)]
      rw [List.flatMap_map]
    have hseg : segPrint ch (some l) =
        ch.inst_name ++ (l.flatMap fun i => '[' :: (natToDec i ++ [']'])) := by
      show (if isAddressableType ch.ctype && ch.is_array then
          ch.inst_name ++ ((l.zip (ch.array_dimensions.getD [])).flatMap
            fun p => '[' :: (natToDec p.1 ++ [']']))
        else ch.inst_name) = _
      rw [if_pos (by rw [haddr, harr]; rfl), hflat]
    rw [hseg]
    unfold findOne
    rw [segMatch_printed ch.inst_name l hgood]
    show (match (l.map natToDec).mapM pyIntBase0 with
      | none => Except.error (PyErr.valueError "invalid literal for int() with base 0")
      | some idxList =>
        match a.inst.comp_child_by_name ch.inst_name with
        | none => Except.ok none
        | some child =>
          if !idxList.isEmpty then
            if !isAddressableType child.ctype then
              Except.error (PyErr.indexError "Index attempted on unindexable component")
            else if child.is_array then
              if idxList.length ≠ (child.array_dimensions.getD []).length then
                Except.error (PyErr.indexError "Wrong number of array dimensions")
              else if (idxList.zip (child.array_dimensions.getD [])).any
                  (fun p => p.2 ≤ p.1) then
                Except.error (PyErr.indexError "Array index out of range")
              else Except.ok (some (NodeOv.mk child (some idxList) (some a)))
            else Except.error (PyErr.indexError "Index attempted on non-array component")
          else Except.ok (some (NodeOv.mk child none (some a)))) = _
    rw [mapM_pyIntBase0_natToDec l, hfind]
    show (if !l.isEmpty then
        if !isAddressableType ch.ctype then
          Except.error (PyErr.indexError "Index attempted on unindexable component")
        else if ch.is_array then
          if l.length ≠ (ch.array_dimensions.getD []).length then
            Except.error (PyErr.indexError "Wrong number of array dimensions")
          else if (l.zip (ch.array_dimensions.getD [])).any (fun p => p.2 ≤ p.1) then
            Except.error (PyErr.indexError "Array index out of range")
          else Except.ok (some (NodeOv.mk ch (some l) (some a)))
        else Except.error (PyErr.indexError "Index attempted on non-array component")
      else Except.ok (some (NodeOv.mk ch none (some a)))) = _
    rw [if_pos (by rw [hlnil]; rfl), if_neg (by rw [haddr]; decide), if_pos harr, hgetd]
    rw [if_neg (by rw [hlen]; simp)]
    rw [if_neg ?hb]
    case hb =>
      intro hcontra
      rcases List.any_eq_true.mp hcontra with ⟨p, hp, hple⟩
      exact absurd (hbounds p hp) (by simpa using hple)
  · have hnone : st.idx = none := by
      cases hx : st.idx with
      | none => rfl
      | some l => exact absurd (hidx l hx).1 harr
    rw [hnone]
    have hseg : segPrint ch none = ch.inst_name := by
      show (if isAddressableType ch.ctype && ch.is_array then
          ch.inst_name ++ ((ch.array_dimensions.getD []).flatMap fun _ => ['[', ']'])
        else ch.inst_name) = _
      rw [if_neg (by rw [Bool.and_eq_true]; rintro ⟨_, h2⟩; exact harr h2)]
    rw [hseg]
    unfold findOne
    have hm := segMatch_printed ch.inst_name [] hgood
    rw [List.flatMap_nil, List.append_nil] at hm
    rw [hm]
    show (match ([] : List (List Char)).mapM pyIntBase0 with
      | none => Except.error (PyErr.valueError "invalid literal for int() with base 0")
      | some idxList =>
        match a.inst.comp_child_by_name ch.inst_name with
        | none => Except.ok none
        | some child =>
          if !idxList.isEmpty then
            if !isAddressableType child.ctype then
              Except.error (PyErr.indexError "Index attempted on unindexable component")
            else if child.is_array then
              if idxList.length ≠ (child.array_dimensions.getD []).length then
                Except.error (PyErr.indexError "Wrong number of array dimensions")
              else if (idxList.zip (child.array_dimensions.getD [])).any
                  (fun p => p.2 ≤ p.1) then
                Except.error (PyErr.indexError "Array index out of range")
              else Except.ok (some (NodeOv.mk child (some idxList) (some a)))
            else Except.error (PyErr.indexError "Index attempted on non-array component")
          else Except.ok (some (NodeOv.mk child none (some a)))) = _
    rw [show ([] : List (List Char)).mapM pyIntBase0 = some [] from rfl, hfind]
    rfl

theorem segPrint_append (ch : Component) (idx : Option (List Nat)) :
    ∃ s, segPrint ch idx = ch.inst_name ++ s := by
  unfold segPrint
  by_cases h : (isAddressableType ch.ctype && ch.is_array) = true
  · rw [if_pos h]
    cases idx with
    | none => exact ⟨_, rfl⟩
    | some l => exact ⟨_, rfl⟩
  · rw [if_neg h]
    exact ⟨[], (List.append_nil _).symm⟩

theorem segPrint_ne_caret (ch : Component) (idx : Option (List Nat))
    (h : goodNameB ch.inst_name = true) : segPrint ch idx ≠ ['^'] := by
  obtain ⟨s, hs⟩ := segPrint_append ch idx
  rw [hs]
  rcases hx : ch.inst_name with _ | ⟨c0, t⟩
  · rw [hx] at h
    exact absurd h (by decide)
  · intro he
    rw [List.cons_append] at he
    have h0 : c0 = '^' := (List.cons.injEq _ _ _ _ ▸ he).1
    have hw : wordChar c0 = true := by
      have := (Bool.and_eq_true _ _).mp h
      exact List.all_eq_true.mp this.2 c0 (by rw [hx]; exact List.mem_cons_self _ _)
    rw [h0] at hw
    exact absurd hw (by decide)

theorem findParts_cons (a : NodeOv) (seg : List Char) (rest : List (List Char)) :
    findParts a (seg :: rest) =
      if seg = ['^'] then
        match a.parent with
        | some p => findParts p rest
        | none => findParts a rest
      else
        match findOne a seg with
        | .error e => .error e
        | .ok none => .ok none
        | .ok (some m) => findParts m rest := rfl

theorem descendNode_cons (a : NodeOv) (st : Step) (rest : List Step) :
    descendNode a (st :: rest) =
      match a.inst.children[st.pos]? with
      | none => none
      | some c => descendNode (NodeOv.mk c st.idx (some a)) rest := rfl

theorem findParts_printed : ∀ (steps : List Step) (a n : NodeOv),
    wfCompB a.inst = true → wfStepsB a.inst steps = true →
    knownStepsB a.inst steps = true →
    descendNode a steps = some n →
    findParts a (stepsSegs a.inst steps) = .ok (some n) := by
  intro steps
  induction steps with
  | nil =>
      intro a n _ _ _ hd
      rw [show descendNode a [] = some a from rfl, Option.some.injEq] at hd
      subst hd
      rfl
  | cons st rest ih =>
      intro a n hwf hws hkn hd
      obtain ⟨ch, hg, hidx, hws2⟩ := wfStepsB_cons a.inst st rest hws
      obtain ⟨hkn1, hkn2⟩ := knownStepsB_cons a.inst ch st rest hg hkn
      have hspec := wfCompB_spec a.inst hwf
      have hchmem : ch ∈ a.inst.children := by
        obtain ⟨hlt, hEq⟩ := List.getElem?_eq_some_iff.mp hg
        exact hEq ▸ (a.inst.children).getElem_mem hlt
      obtain ⟨hgood, _, _, hchwf⟩ := hspec.2 ch hchmem
      have hd2 : descendNode (NodeOv.mk ch st.idx (some a)) rest = some n := by
        rw [descendNode_cons, hg] at hd
        exact hd
      rw [stepsSegs_cons a.inst ch st rest hg, findParts_cons,
        if_neg (segPrint_ne_caret ch st.idx hgood),
        findOne_printed a ch st hwf hg hidx hkn1]
      exact ih (NodeOv.mk ch st.idx (some a)) n
        (by simpa [NodeOv.inst] using hchwf)
        (by simpa [NodeOv.inst] using hws2)
        (by simpa [NodeOv.inst] using hkn2)
        hd2

theorem stepsSegs_no_dot : ∀ (steps : List Step) (c : Component),
    wfCompB c = true → wfStepsB c steps = true →
    ∀ s ∈ stepsSegs c steps, ∀ ch ∈ s, ch ≠ '.' := by
  intro steps
  induction steps with
  | nil => intro c _ _ s hs; simp [stepsSegs] at hs
  | cons st rest ih =>
      intro c hw hws s hs
      obtain ⟨ch, hg, _, hws2⟩ := wfStepsB_cons c st rest hws
      have hspec := wfCompB_spec c hw
      have hchmem : ch ∈ c.children := by
        obtain ⟨hlt, hEq⟩ := List.getElem?_eq_some_iff.mp hg
        exact hEq ▸ c.children.getElem_mem hlt
      obtain ⟨hgood, _, _, hchwf⟩ := hspec.2 ch hchmem
      rw [stepsSegs_cons c ch st rest hg] at hs
      rcases List.mem_cons.mp hs with rfl | hs
      · exact segPrint_no_dot ch st.idx hgood
      · exact ih ch hchwf hws2 s hs

/-- Counterexample to C4 as stated: for the array node `top.arr` with unknown
current index, `get_path` yields `"top.arr[][]"`, and `find_by_path` on that
string raises the path-syntax `ValueError` instead of returning the node. -/
theorem c4_counterexample :
    (sampleArrOv none).get_path = "top.arr[][]" ∧
    sampleRootOv.find_by_path ((sampleArrOv none).get_path) =
      .error (.valueError "Invalid path") :=
  ⟨rfl, rfl⟩

/-- C4 (amended): `find_by_path` round-trips with `get_path` for every
non-root node whose own and ancestor array indices are all known: descending
well-formed steps from the root overlay and resolving the printed absolute
path from the root recovers exactly that node. Unknown-index array nodes are
excluded (their paths contain `[]`, which `find_by_path` rejects). -/
theorem c4_find_by_path_roundtrip (rootC : Component) (steps : List Step) (n : NodeOv)
    (hw : wfCompB rootC = true) (hroot : rootC.ctype = CompType.root)
    (hs : wfStepsB rootC steps = true) (hk : knownStepsB rootC steps = true)
    (hne : steps ≠ [])
    (hd : descendNode (NodeOv.mk rootC none none) steps = some n) :
    (NodeOv.mk rootC none none).find_by_path n.get_path = .ok (some n) := by
  have hrootsegs : (NodeOv.mk rootC none none).get_path_segments = [] := by
    rw [get_path_segments_none, if_neg (by simpa [NodeOv.inst] using hroot)]
  have hsegs : n.get_path_segments = stepsSegs rootC steps := by
    have := segments_descend steps (NodeOv.mk rootC none none) n
      (by simpa [NodeOv.inst] using hw)
      (by simpa [NodeOv.inst] using hs)
      (fun _ => hrootsegs) hd
    rw [this, hrootsegs]
    simp [NodeOv.inst]
  have hlen : (stepsSegs rootC steps).length = steps.length :=
    stepsSegs_length steps rootC hs
  have hsegne : stepsSegs rootC steps ≠ [] := by
    intro he
    rw [he] at hlen
    exact hne (List.eq_nil_of_length_eq_zero hlen.symm)
  have hnodot : ∀ s ∈ stepsSegs rootC steps, ∀ c ∈ s, c ≠ '.' :=
    stepsSegs_no_dot steps rootC hw hs
  unfold NodeOv.find_by_path
  rw [show n.get_path.data = joinDot n.get_path_segments from rfl, hsegs,
    splitOnDot_joinDot (stepsSegs rootC steps) hsegne hnodot]
  exact findParts_printed steps (NodeOv.mk rootC none none) n
    (by simpa [NodeOv.inst] using hw)
    (by simpa [NodeOv.inst] using hs)
    (by simpa [NodeOv.inst] using hk) hd

/-- Witness for C4 (amended): on the sample tree, resolving the printed path
of the known-index array element `top.arr[1][2]` from the root returns that
node. -/
theorem c4_witness :
    sampleRootOv.find_by_path ((sampleArrOv (some [1, 2])).get_path) =
      .ok (some (sampleArrOv (some [1, 2]))) := by
  have h := c4_find_by_path_roundtrip sampleRoot [⟨0, none⟩, ⟨1, some [1, 2]⟩]
    (sampleArrOv (some [1, 2])) rfl rfl rfl rfl (by simp) rfl
  exact h

theorem findOne_nomatch (n : NodeOv) (seg : List Char) (h : segMatch seg = none) :
    findOne n seg = .error (.valueError "Invalid path") := by
  unfold findOne
  rw [h]

theorem findOne_parsed (n : NodeOv) (seg nm : List Char) (bs : List (List Char))
    (idxs : List Nat) (h1 : segMatch seg = some (nm, bs))
    (h2 : bs.mapM pyIntBase0 = some idxs) :
    findOne n seg =
      match n.inst.comp_child_by_name nm with
      | none => .ok none
      | some child =>
        if !idxs.isEmpty then
          if !isAddressableType child.ctype then
            .error (.indexError "Index attempted on unindexable component")
          else if child.is_array then
            if idxs.length ≠ (child.array_dimensions.getD []).length then
              .error (.indexError "Wrong number of array dimensions")
            else if (idxs.zip (child.array_dimensions.getD [])).any
                (fun p => p.2 ≤ p.1) then
              .error (.indexError "Array index out of range")
            else .ok (some (NodeOv.mk child (some idxs) (some n)))
          else .error (.indexError "Index attempted on non-array component")
        else .ok (some (NodeOv.mk child none (some n))) := by
  unfold findOne
  rw [h1]
  show (match bs.mapM pyIntBase0 with
    | none => Except.error (PyErr.valueError "invalid literal for int() with base 0")
    | some idxList =>
      match n.inst.comp_child_by_name nm with
      | none => Except.ok none
      | some child =>
        if !idxList.isEmpty then
          if !isAddressableType child.ctype then
            Except.error (PyErr.indexError "Index attempted on unindexable component")
          else if child.is_array then
            if idxList.length ≠ (child.array_dimensions.getD []).length then
              Except.error (PyErr.indexError "Wrong number of array dimensions")
            else if (idxList.zip (child.array_dimensions.getD [])).any
                (fun p => p.2 ≤ p.1) then
              Except.error (PyErr.indexError "Array index out of range")
            else Except.ok (some (NodeOv.mk child (some idxList) (some n)))
          else Except.error (PyErr.indexError "Index attempted on non-array component")
        else Except.ok (some (NodeOv.mk child none (some n)))) = _
  rw [h2]

/-- C8: during path resolution, a non-`^` segment that fails the
`name(\[index\])*` regex raises the path-syntax `ValueError`; bracket
indices on a child that is not an addressable node, or on an addressable
non-array child, raise `IndexError`; an index count different from the
array's dimensionality, and any index at or above its dimension bound, raise
`IndexError`; a named segment with no matching child returns `None` rather
than raising; and a `^` segment on a parentless (root) node is a no-op. -/
theorem c8_find_by_path_errors :
    (∀ (n : NodeOv) (seg : List Char) (rest : List (List Char)),
      seg ≠ ['^'] → segMatch seg = none →
      findParts n (seg :: rest) = .error (.valueError "Invalid path")) ∧
    (∀ (n : NodeOv) (seg nm : List Char) (rest : List (List Char))
        (bs : List (List Char)) (idxs : List Nat) (child : Component),
      seg ≠ ['^'] → segMatch seg = some (nm, bs) → bs.mapM pyIntBase0 = some idxs →
      idxs ≠ [] → n.inst.comp_child_by_name nm = some child →
      isAddressableType child.ctype = false →
      findParts n (seg :: rest) =
        .error (.indexError "Index attempted on unindexable component")) ∧
    (∀ (n : NodeOv) (seg nm : List Char) (rest : List (List Char))
        (bs : List (List Char)) (idxs : List Nat) (child : Component),
      seg ≠ ['^'] → segMatch seg = some (nm, bs) → bs.mapM pyIntBase0 = some idxs →
      idxs ≠ [] → n.inst.comp_child_by_name nm = some child →
      isAddressableType child.ctype = true → child.is_array = false →
      findParts n (seg :: rest) =
        .error (.indexError "Index attempted on non-array component")) ∧
    (∀ (n : NodeOv) (seg nm : List Char) (rest : List (List Char))
        (bs : List (List Char)) (idxs : List Nat) (child : Component),
      seg ≠ ['^'] → segMatch seg = some (nm, bs) → bs.mapM pyIntBase0 = some idxs →
      idxs ≠ [] → n.inst.comp_child_by_name nm = some child →
      isAddressableType child.ctype = true → child.is_array = true →
      idxs.length ≠ (child.array_dimensions.getD []).length →
      findParts n (seg :: rest) =
        .error (.indexError "Wrong number of array dimensions")) ∧
    (∀ (n : NodeOv) (seg nm : List Char) (rest : List (List Char))
        (bs : List (List Char)) (idxs : List Nat) (child : Component),
      seg ≠ ['^'] → segMatch seg = some (nm, bs) → bs.mapM pyIntBase0 = some idxs →
      idxs ≠ [] → n.inst.comp_child_by_name nm = some child →
      isAddressableType child.ctype = true → child.is_array = true →
      idxs.length = (child.array_dimensions.getD []).length →
      (∃ p ∈ idxs.zip (child.array_dimensions.getD []), p.2 ≤ p.1) →
      findParts n (seg :: rest) = .error (.indexError "Array index out of range")) ∧
    (∀ (n : NodeOv) (seg nm : List Char) (rest : List (List Char))
        (bs : List (List Char)) (idxs : List Nat),
      seg ≠ ['^'] → segMatch seg = some (nm, bs) → bs.mapM pyIntBase0 = some idxs →
      n.inst.comp_child_by_name nm = none →
      findParts n (seg :: rest) = .ok none) ∧
    (∀ (n : NodeOv) (rest : List (List Char)),
      n.parent = none → findParts n (['^'] :: rest) = findParts n rest) := by
  have hne_empty : ∀ idxs : List Nat, idxs ≠ [] → (!idxs.isEmpty) = true := by
    intro idxs h
    cases idxs with
    | nil => exact absurd rfl h
    | cons x t => rfl
  refine ⟨?_, ?_, ?_, ?_, ?_, ?_, ?_⟩
  · intro n seg rest hc hm
    rw [findParts_cons, if_neg hc, findOne_nomatch n seg hm]
  · intro n seg nm rest bs idxs child hc hm hint hne hch hna
    have hfo : findOne n seg =
        .error (.indexError "Index attempted on unindexable component") := by
      rw [findOne_parsed n seg nm bs idxs hm hint, hch]
      show (if !idxs.isEmpty then _ else _) = _
      rw [if_pos (hne_empty idxs hne), if_pos (by rw [hna]; rfl)]
    rw [findParts_cons, if_neg hc, hfo]
  · intro n seg nm rest bs idxs child hc hm hint hne hch hat hna
    have hfo : findOne n seg =
        .error (.indexError "Index attempted on non-array component") := by
      rw [findOne_parsed n seg nm bs idxs hm hint, hch]
      show (if !idxs.isEmpty then _ else _) = _
      rw [if_pos (hne_empty idxs hne), if_neg (by rw [hat]; decide),
        if_neg (by rw [hna]; decide)]
    rw [findParts_cons, if_neg hc, hfo]
  · intro n seg nm rest bs idxs child hc hm hint hne hch hat harr hlen
    have hfo : findOne n seg =
        .error (.indexError "Wrong number of array dimensions") := by
      rw [findOne_parsed n seg nm bs idxs hm hint, hch]
      show (if !idxs.isEmpty then _ else _) = _
      rw [if_pos (hne_empty idxs hne), if_neg (by rw [hat]; decide), if_pos harr,
        if_pos hlen]
    rw [findParts_cons, if_neg hc, hfo]
  · intro n seg nm rest bs idxs child hc hm hint hne hch hat harr hlen hoob
    have hfo : findOne n seg = .error (.indexError "Array index out of range") := by
      rw [findOne_parsed n seg nm bs idxs hm hint, hch]
      show (if !idxs.isEmpty then _ else _) = _
      rw [if_pos (hne_empty idxs hne), if_neg (by rw [hat]; decide), if_pos harr,
        if_neg (by rw [hlen]; simp),
        if_pos (List.any_eq_true.mpr (by
          obtain ⟨p, hp, hle⟩ := hoob
          exact ⟨p, hp, by simpa using hle⟩))]
    rw [findParts_cons, if_neg hc, hfo]
  · intro n seg nm rest bs idxs hc hm hint hch
    have hfo : findOne n seg = .ok none := by
      rw [findOne_parsed n seg nm bs idxs hm hint, hch]
    rw [findParts_cons, if_neg hc, hfo]
  · intro n rest hp
    rw [findParts_cons, if_pos rfl, hp]

/-- Witness for C8 on the sample tree: one concrete instance per behavior —
a malformed segment, indices on a signal, indices on a non-array register,
wrong index count, an out-of-bound index, a missing name, and `^` at the
root. -/
theorem c8_witness :
    findParts sampleTopOv [['a', '!']] = .error (.valueError "Invalid path") ∧
    findParts sampleTopOv [['s', '0', '[', '0', ']']] =
      .error (.indexError "Index attempted on unindexable component") ∧
    findParts sampleTopOv [['r', '0', '[', '0', ']']] =
      .error (.indexError "Index attempted on non-array component") ∧
    findParts sampleTopOv [['a', 'r', 'r', '[', '1', ']']] =
      .error (.indexError "Wrong number of array dimensions") ∧
    findParts sampleTopOv [['a', 'r', 'r', '[', '1', ']', '[', '3', ']']] =
      .error (.indexError "Array index out of range") ∧
    findParts sampleTopOv [['n', 'o', 'p', 'e']] = .ok none ∧
    findParts sampleRootOv [['^']] = .ok (some sampleRootOv) := by
  obtain ⟨h1, h2, h3, h4, h5, h6, h7⟩ := c8_find_by_path_errors
  refine ⟨?_, ?_, ?_, ?_, ?_, ?_, ?_⟩
  · exact h1 sampleTopOv ['a', '!'] [] (by decide) rfl
  · exact h2 sampleTopOv ['s', '0', '[', '0', ']'] ['s', '0'] [] [['0']] [0] sampleSig
      (by decide) rfl rfl (by decide) rfl rfl
  · exact h3 sampleTopOv ['r', '0', '[', '0', ']'] ['r', '0'] [] [['0']] [0] sampleReg
      (by decide) rfl rfl (by decide) rfl rfl rfl
  · exact h4 sampleTopOv ['a', 'r', 'r', '[', '1', ']'] ['a', 'r', 'r'] [] [['1']] [1]
      sampleArr (by decide) rfl rfl (by decide) rfl rfl rfl (by decide)
  · exact h5 sampleTopOv ['a', 'r', 'r', '[', '1', ']', '[', '3', ']'] ['a', 'r', 'r'] []
      [['1'], ['3']] [1, 3] sampleArr (by decide) rfl rfl (by decide) rfl rfl rfl
      (by decide) ⟨(3, 3), by decide, by decide⟩
  · exact h6 sampleTopOv ['n', 'o', 'p', 'e'] ['n', 'o', 'p', 'e'] [] [] []
      (by decide) rfl rfl rfl
  · exact h7 sampleRootOv [] rfl

/-!
### Relative paths: uplevels, common prefixes and resolution
-/

theorem natToDec_injective (a b : Nat) (h : natToDec a = natToDec b) : a = b := by
  have := decValue_natToDec a
  rw [h, decValue_natToDec b] at this
  exact this.symm

theorem segPrint_takeWhile (ch : Component) (idx : Option (List Nat))
    (h : goodNameB ch.inst_name = true) :
    (segPrint ch idx).takeWhile wordChar = ch.inst_name := by
  have hword : ∀ c ∈ ch.inst_name, wordChar c = true := fun c hc =>
    List.all_eq_true.mp ((Bool.and_eq_true _ _).mp h).2 c hc
  have hsuffix : ∃ s, segPrint ch idx = ch.inst_name ++ s ∧
      (s = [] ∨ ∃ t, s = '[' :: t) := by
    unfold segPrint
    by_cases harr : (isAddressableType ch.ctype && ch.is_array) = true
    · rw [if_pos harr]
      cases idx with
      | none =>
          refine ⟨_, rfl, ?_⟩
          cases hd : ch.array_dimensions.getD [] with
          | nil => exact Or.inl rfl
          | cons d ds => exact Or.inr ⟨_, rfl⟩
      | some l =>
          refine ⟨_, rfl, ?_⟩
          cases hz : l.zip (ch.array_dimensions.getD []) with
          | nil => exact Or.inl rfl
          | cons p ps => exact Or.inr ⟨_, rfl⟩
    · rw [if_neg harr]
      exact ⟨[], (List.append_nil _).symm, Or.inl rfl⟩
  obtain ⟨s, hs, hshape⟩ := hsuffix
  rw [hs, (takeWhile_append_all wordChar ch.inst_name s hword).1]
  rcases hshape with rfl | ⟨t, rfl⟩
  · simp
  · rw [List.takeWhile_cons]
    simp [wordChar]

theorem segPrint_name_eq (c1 c2 : Component) (i1 i2 : Option (List Nat))
    (h1 : goodNameB c1.inst_name = true) (h2 : goodNameB c2.inst_name = true)
    (heq : segPrint c1 i1 = segPrint c2 i2) : c1.inst_name = c2.inst_name := by
  have := segPrint_takeWhile c1 i1 h1
  rw [heq, segPrint_takeWhile c2 i2 h2] at this
  exact this.symm

theorem upNode_comp : ∀ (i j : Nat) (n : NodeOv),
    upNode n (i + j) = upNode (upNode n i) j := by
  intro i
  induction i with
  | zero => intro j n; rw [Nat.zero_add]; rfl
  | succ k ih =>
      intro j n
      have hs : k + 1 + j = (k + j) + 1 := by omega
      rw [hs]
      show (match n.parent with
        | some p => upNode p (k + j)
        | none => upNode n (k + j)) =
        upNode (match n.parent with
          | some p => upNode p k
          | none => upNode n k) j
      cases n.parent with
      | some p => exact ih j p
      | none => exact ih j n

theorem upNode_descend : ∀ (steps : List Step) (a n : NodeOv),
    descendNode a steps = some n → upNode n steps.length = a := by
  intro steps
  induction steps with
  | nil =>
      intro a n hd
      rw [show descendNode a [] = some a from rfl, Option.some.injEq] at hd
      subst hd
      rfl
  | cons st rest ih =>
      intro a n hd
      rw [descendNode_cons] at hd
      rcases hg : a.inst.children[st.pos]? with _ | ch
      · rw [hg] at hd
        cases hd
      · rw [hg] at hd
        have hup := ih (NodeOv.mk ch st.idx (some a)) n hd
        have hlen : (st :: rest).length = rest.length + 1 := rfl
        rw [hlen, upNode_comp rest.length 1 n, hup]
        rfl

theorem findParts_carets : ∀ (u : Nat) (n : NodeOv) (rest : List (List Char)),
    findParts n (List.replicate u ['^'] ++ rest) = findParts (upNode n u) rest := by
  intro u
  induction u with
  | zero => intro n rest; rfl
  | succ k ih =>
      intro n rest
      rw [List.replicate_succ, List.cons_append, findParts_cons, if_pos rfl]
      have hu : upNode n (k + 1) =
          match n.parent with
          | some p => upNode p k
          | none => upNode n k := rfl
      rw [hu]
      cases hp : n.parent with
      | some p => exact ih p rest
      | none => exact ih n rest

theorem descend_transport : ∀ (steps : List Step) (aR aS n : NodeOv),
    aR.inst = aS.inst → descendNode aS steps = some n →
    ∃ m, descendNode aR steps = some m := by
  intro steps
  induction steps with
  | nil => intro aR aS n _ _; exact ⟨aR, rfl⟩
  | cons st rest ih =>
      intro aR aS n hinst hd
      rw [descendNode_cons] at hd ⊢
      rcases hg : aS.inst.children[st.pos]? with _ | ch
      · rw [hg] at hd
        cases hd
      · rw [hg] at hd
        rw [hinst, hg]
        exact ih (NodeOv.mk ch st.idx (some aR)) (NodeOv.mk ch st.idx (some aS)) n rfl hd

theorem relPop_self : ∀ l : List (List Char), relPop l l l = ([], []) := by
  intro l
  induction l with
  | nil => rfl
  | cons s ss ih =>
      show relPop (s :: ss) (s :: ss) (s :: ss) = ([], [])
      unfold relPop
      rw [if_pos rfl]
      exact ih

theorem relPop_all : ∀ a b : List (List Char), relPop a b b = ([], []) → a = b := by
  intro a
  induction a with
  | nil =>
      intro b h
      cases b with
      | nil => rfl
      | cons s ss => cases h
  | cons r rs ih =>
      intro b h
      cases b with
      | nil => cases h
      | cons s ss =>
          unfold relPop at h
          by_cases he : r = s
          · rw [if_pos he] at h
            rw [he, ih ss h]
          · rw [if_neg he] at h
            cases h

theorem relPop_mem_snd : ∀ (a b : List (List Char)) (x : List Char),
    x ∈ (relPop a b b).2 → x ∈ b := by
  intro a
  induction a with
  | nil =>
      intro b x hx
      exact hx
  | cons r rs ih =>
      intro b x hx
      cases b with
      | nil => exact hx
      | cons s ss =>
          unfold relPop at hx
          by_cases he : r = s
          · rw [if_pos he] at hx
            exact List.mem_cons_of_mem _ (ih ss x hx)
          · rw [if_neg he] at hx
            exact hx

theorem relPop_cons (r s f : List Char) (rs ss fs : List (List Char)) :
    relPop (r :: rs) (s :: ss) (f :: fs) =
      if r = s then relPop rs ss fs else (r :: rs, f :: fs) := rfl

theorem relPop_nil_left (b fs : List (List Char)) : relPop [] b fs = ([], fs) := by
  cases b <;> cases fs <;> rfl

theorem relPop_nil_mid (a fs : List (List Char)) : relPop a [] fs = (a, fs) := by
  cases a <;> cases fs <;> rfl

theorem rel_resolve_stop (stepsR stepsS : List Step) (aR aS refN selfN : NodeOv)
    (hinst : aR.inst = aS.inst)
    (hsegeq : aR.get_path_segments = aS.get_path_segments)
    (hrootR : aR.inst.ctype = CompType.root → aR.get_path_segments = [])
    (hw : wfCompB aR.inst = true)
    (hsR : wfStepsB aR.inst stepsR = true)
    (hsS : wfStepsB aS.inst stepsS = true)
    (hkS : knownStepsB aS.inst stepsS = true)
    (hdR : descendNode aR stepsR = some refN)
    (hdS : descendNode aS stepsS = some selfN) :
    ∃ m, findParts refN
        (List.replicate (stepsSegs aR.inst stepsR).length ['^'] ++ stepsSegs aS.inst stepsS)
        = .ok (some m) ∧
      m.get_path_segments = selfN.get_path_segments := by
  have hsS' : wfStepsB aR.inst stepsS = true := by rw [hinst]; exact hsS
  have hkS' : knownStepsB aR.inst stepsS = true := by rw [hinst]; exact hkS
  obtain ⟨m, hm⟩ := descend_transport stepsS aR aS selfN hinst hdS
  refine ⟨m, ?_, ?_⟩
  · rw [stepsSegs_length stepsR aR.inst hsR, findParts_carets,
      upNode_descend stepsR aR refN hdR, ← hinst]
    exact findParts_printed stepsS aR m hw hsS' hkS' hm
  · have hrootS : aS.inst.ctype = CompType.root → aS.get_path_segments = [] := by
      intro hr
      rw [← hsegeq]
      exact hrootR (by rw [hinst]; exact hr)
    have h1 := segments_descend stepsS aR m hw hsS' hrootR hm
    have h2 := segments_descend stepsS aS selfN (by rw [← hinst]; exact hw) hsS hrootS hdS
    rw [h1, h2, hsegeq, hinst]

theorem child_segments (a : NodeOv) (ch : Component) (idx : Option (List Nat))
    (hchroot : ch.ctype ≠ CompType.root)
    (hroot : a.inst.ctype = CompType.root → a.get_path_segments = []) :
    (NodeOv.mk ch idx (some a)).get_path_segments =
      a.get_path_segments ++ [segPrint ch idx] := by
  rw [get_path_segments_some]
  by_cases hr : a.inst.ctype ≠ CompType.root
  · rw [if_pos hr]
    rfl
  · rw [if_neg hr]
    rw [not_not] at hr
    rw [hroot hr, if_pos (by simpa [NodeOv.inst] using hchroot)]
    rfl

theorem rel_resolve : ∀ (stepsR stepsS : List Step) (aR aS refN selfN : NodeOv),
    aR.inst = aS.inst →
    aR.get_path_segments = aS.get_path_segments →
    (aR.inst.ctype = CompType.root → aR.get_path_segments = []) →
    wfCompB aR.inst = true →
    wfStepsB aR.inst stepsR = true →
    wfStepsB aS.inst stepsS = true →
    knownStepsB aS.inst stepsS = true →
    descendNode aR stepsR = some refN →
    descendNode aS stepsS = some selfN →
    ∃ m, findParts refN
        (List.replicate (relPop (stepsSegs aR.inst stepsR) (stepsSegs aS.inst stepsS)
            (stepsSegs aS.inst stepsS)).1.length ['^'] ++
          (relPop (stepsSegs aR.inst stepsR) (stepsSegs aS.inst stepsS)
            (stepsSegs aS.inst stepsS)).2) = .ok (some m) ∧
      m.get_path_segments = selfN.get_path_segments := by
  intro stepsR
  induction stepsR with
  | nil =>
      intro stepsS aR aS refN selfN hinst hsegeq hrootR hw hsR hsS hkS hdR hdS
      rw [show stepsSegs aR.inst [] = [] from rfl, relPop_nil_left]
      have := rel_resolve_stop [] stepsS aR aS refN selfN hinst hsegeq hrootR hw
        hsR hsS hkS hdR hdS
      simpa using this
  | cons stR restR ih =>
      intro stepsS aR aS refN selfN hinst hsegeq hrootR hw hsR hsS hkS hdR hdS
      obtain ⟨chR, hgR, hidxR, hsR2⟩ := wfStepsB_cons aR.inst stR restR hsR
      cases stepsS with
      | nil =>
          rw [show stepsSegs aS.inst [] = [] from rfl, relPop_nil_mid]
          have := rel_resolve_stop (stR :: restR) [] aR aS refN selfN hinst hsegeq
            hrootR hw hsR hsS hkS hdR hdS
          rw [show stepsSegs aS.inst [] = [] from rfl, List.append_nil] at this
          simpa using this
      | cons stS restS =>
          obtain ⟨chS, hgS, hidxS, hsS2⟩ := wfStepsB_cons aS.inst stS restS hsS
          obtain ⟨hkS1, hkS2⟩ := knownStepsB_cons aS.inst chS stS restS hgS hkS
          rw [stepsSegs_cons aR.inst chR stR restR hgR,
            stepsSegs_cons aS.inst chS stS restS hgS, relPop_cons]
          by_cases hseg : segPrint chR stR.idx = segPrint chS stS.idx
          · rw [if_pos hseg]
            have hspec := wfCompB_spec aR.inst hw
            have hchmemR : chR ∈ aR.inst.children := by
              obtain ⟨hlt, hEq⟩ := List.getElem?_eq_some_iff.mp hgR
              exact hEq ▸ (aR.inst.children).getElem_mem hlt
            have hchmemS : chS ∈ aR.inst.children := by
              obtain ⟨hlt, hEq⟩ := List.getElem?_eq_some_iff.mp hgS
              have : chS ∈ aS.inst.children := hEq ▸ (aS.inst.children).getElem_mem hlt
              rw [← hinst] at this
              exact this
            obtain ⟨hgoodR, hrootchR, _, hwfchR⟩ := hspec.2 chR hchmemR
            obtain ⟨hgoodS, _, _, _⟩ := hspec.2 chS hchmemS
            have hnm : chR.inst_name = chS.inst_name :=
              segPrint_name_eq chR chS stR.idx stS.idx hgoodR hgoodS hseg
            have hcheq : chR = chS :=
              List.inj_on_of_nodup_map hspec.1 hchmemR hchmemS hnm
            subst hcheq
            have hdR2 : descendNode (NodeOv.mk chR stR.idx (some aR)) restR = some refN := by
              rw [descendNode_cons, hgR] at hdR
              exact hdR
            have hdS2 : descendNode (NodeOv.mk chR stS.idx (some aS)) restS = some selfN := by
              rw [descendNode_cons, hgS] at hdS
              exact hdS
            have hsegeq2 : (NodeOv.mk chR stR.idx (some aR)).get_path_segments =
                (NodeOv.mk chR stS.idx (some aS)).get_path_segments := by
              have hrootS : aS.inst.ctype = CompType.root → aS.get_path_segments = [] := by
                intro hr
                rw [← hsegeq]
                exact hrootR (by rw [hinst]; exact hr)
              rw [child_segments aR chR stR.idx hrootchR hrootR,
                child_segments aS chR stS.idx hrootchR hrootS, hsegeq, hseg]
            have := ih restS (NodeOv.mk chR stR.idx (some aR)) (NodeOv.mk chR stS.idx (some aS))
              refN selfN rfl hsegeq2
              (fun hcr => absurd (by simpa [NodeOv.inst] using hcr) hrootchR)
              (by simpa [NodeOv.inst] using hwfchR)
              (by simpa [NodeOv.inst] using hsR2)
              (by simpa [NodeOv.inst] using hsS2)
              (by simpa [NodeOv.inst] using hkS2)
              hdR2 hdS2
            simpa [NodeOv.inst] using this
          · rw [if_neg hseg]
            have := rel_resolve_stop (stR :: restR) (stS :: restS) aR aS refN selfN
              hinst hsegeq hrootR hw hsR hsS hkS hdR hdS
            rw [stepsSegs_cons aR.inst chR stR restR hgR,
              stepsSegs_cons aS.inst chS stS restS hgS] at this
            simpa using this

/-- Counterexample to C7 as stated: for a node and itself, `get_rel_path`
returns the empty string (the first half of the claim), but re-resolving that
string from the reference node does not recover the node: `find_by_path("")`
raises the path-syntax `ValueError` instead. -/
theorem c7_counterexample :
    sampleRegOv.get_rel_path sampleRegOv = "" ∧
    sampleRegOv.find_by_path (sampleRegOv.get_rel_path sampleRegOv) =
      .error (.valueError "Invalid path") :=
  ⟨rfl, rfl⟩

/-- C7 (amended): `get_rel_path` of a node with respect to itself is the
empty string, for every node; and for any two nodes reached by well-formed
descent steps from the same root — with every array index on the self node's
side known — whose canonical paths differ, resolving
`self.get_rel_path(ref)` with `find_by_path` starting at the reference node
succeeds and returns a node with the same path as `self`. (For `self == ref`
the relative path is `""`, which `find_by_path` rejects with `ValueError`
rather than returning `self`, so the self-to-self half of the round trip in
the original claim fails; unknown indices on the reference side are harmless,
as its leftover segments only contribute uplevel tokens.) -/
theorem c7_get_rel_path_roundtrip :
    (∀ n : NodeOv, n.get_rel_path n = "") ∧
    ∀ (rootC : Component) (stepsR stepsS : List Step) (refN selfN : NodeOv),
      wfCompB rootC = true → rootC.ctype = CompType.root →
      wfStepsB rootC stepsR = true →
      wfStepsB rootC stepsS = true →
      knownStepsB rootC stepsS = true →
      descendNode (NodeOv.mk rootC none none) stepsR = some refN →
      descendNode (NodeOv.mk rootC none none) stepsS = some selfN →
      refN.get_path ≠ selfN.get_path →
      ∃ m, refN.find_by_path (selfN.get_rel_path refN) = .ok (some m) ∧
        m.get_path = selfN.get_path := by
  constructor
  · intro n
    show String.mk (joinDot (List.replicate
        (relPop n.get_path_segments n.get_path_segments n.get_path_segments).1.length ['^'] ++
        (relPop n.get_path_segments n.get_path_segments n.get_path_segments).2)) = ""
    rw [relPop_self]
    rfl
  · intro rootC stepsR stepsS refN selfN hw hroot hsR hsS hkS hdR hdS hne
    have hrootsegs : (NodeOv.mk rootC none none).get_path_segments = [] := by
      rw [get_path_segments_none, if_neg (by simpa [NodeOv.inst] using hroot)]
    have hsegsR : refN.get_path_segments = stepsSegs rootC stepsR := by
      have := segments_descend stepsR (NodeOv.mk rootC none none) refN
        (by simpa [NodeOv.inst] using hw)
        (by simpa [NodeOv.inst] using hsR)
        (fun _ => hrootsegs) hdR
      rw [this, hrootsegs]
      simp [NodeOv.inst]
    have hsegsS : selfN.get_path_segments = stepsSegs rootC stepsS := by
      have := segments_descend stepsS (NodeOv.mk rootC none none) selfN
        (by simpa [NodeOv.inst] using hw)
        (by simpa [NodeOv.inst] using hsS)
        (fun _ => hrootsegs) hdS
      rw [this, hrootsegs]
      simp [NodeOv.inst]
    obtain ⟨m, hfm, hmseg⟩ := rel_resolve stepsR stepsS (NodeOv.mk rootC none none)
      (NodeOv.mk rootC none none) refN selfN rfl rfl (fun _ => hrootsegs)
      (by simpa [NodeOv.inst] using hw)
      (by simpa [NodeOv.inst] using hsR)
      (by simpa [NodeOv.inst] using hsS)
      (by simpa [NodeOv.inst] using hkS)
      hdR hdS
    have hfm2 : findParts refN
        (List.replicate (relPop (stepsSegs rootC stepsR) (stepsSegs rootC stepsS)
            (stepsSegs rootC stepsS)).1.length ['^'] ++
          (relPop (stepsSegs rootC stepsR) (stepsSegs rootC stepsS)
            (stepsSegs rootC stepsS)).2) = .ok (some m) := by
      simpa [NodeOv.inst] using hfm
    have hLne : List.replicate (relPop (stepsSegs rootC stepsR) (stepsSegs rootC stepsS)
        (stepsSegs rootC stepsS)).1.length ['^'] ++
          (relPop (stepsSegs rootC stepsR) (stepsSegs rootC stepsS)
            (stepsSegs rootC stepsS)).2 ≠ [] := by
      intro he
      obtain ⟨h1, h2⟩ := List.append_eq_nil.mp he
      have hlen0 : (relPop (stepsSegs rootC stepsR) (stepsSegs rootC stepsS)
          (stepsSegs rootC stepsS)).1.length = 0 := by
        have hl := congrArg List.length h1
        simpa using hl
      have hfst : (relPop (stepsSegs rootC stepsR) (stepsSegs rootC stepsS)
          (stepsSegs rootC stepsS)).1 = [] := List.eq_nil_of_length_eq_zero hlen0
      have hpair : relPop (stepsSegs rootC stepsR) (stepsSegs rootC stepsS)
          (stepsSegs rootC stepsS) = ([], []) := by
        rw [Prod.ext_iff]
        exact ⟨hfst, h2⟩
      have heqsegs := relPop_all _ _ hpair
      apply hne
      show String.mk (joinDot refN.get_path_segments) =
        String.mk (joinDot selfN.get_path_segments)
      rw [hsegsR, hsegsS, heqsegs]
    have hLnodot : ∀ s ∈ List.replicate (relPop (stepsSegs rootC stepsR)
        (stepsSegs rootC stepsS) (stepsSegs rootC stepsS)).1.length ['^'] ++
          (relPop (stepsSegs rootC stepsR) (stepsSegs rootC stepsS)
            (stepsSegs rootC stepsS)).2, ∀ c ∈ s, c ≠ '.' := by
      intro s hs
      rcases List.mem_append.mp hs with hs | hs
      · rw [List.eq_of_mem_replicate hs]
        intro c hc
        rw [List.mem_singleton.mp hc]
        decide
      · exact stepsSegs_no_dot stepsS rootC hw hsS s (relPop_mem_snd _ _ s hs)
    have hrel : selfN.get_rel_path refN = String.mk (joinDot
        (List.replicate (relPop (stepsSegs rootC stepsR) (stepsSegs rootC stepsS)
            (stepsSegs rootC stepsS)).1.length ['^'] ++
          (relPop (stepsSegs rootC stepsR) (stepsSegs rootC stepsS)
            (stepsSegs rootC stepsS)).2)) := by
      show String.mk (joinDot (List.replicate
          (relPop refN.get_path_segments selfN.get_path_segments
            selfN.get_path_segments).1.length ['^'] ++
          (relPop refN.get_path_segments selfN.get_path_segments
            selfN.get_path_segments).2)) = _
      rw [hsegsR, hsegsS]
    refine ⟨m, ?_, ?_⟩
    · rw [hrel]
      show findParts refN (splitOnDot (joinDot
          (List.replicate (relPop (stepsSegs rootC stepsR) (stepsSegs rootC stepsS)
              (stepsSegs rootC stepsS)).1.length ['^'] ++
            (relPop (stepsSegs rootC stepsR) (stepsSegs rootC stepsS)
              (stepsSegs rootC stepsS)).2))) = .ok (some m)
      rw [splitOnDot_joinDot _ hLne hLnodot]
      exact hfm2
    · exact congrArg (fun segs => String.mk (joinDot segs)) hmseg

/-- Witness for C7: `r0` relative to itself gives `""`; and resolving the
relative path of `arr[1][2]` with respect to `top` (namely `"arr[1][2]"`)
from `top` recovers a node with the path of `arr[1][2]`. -/
theorem c7_witness :
    sampleRegOv.get_rel_path sampleRegOv = "" ∧
    ∃ m, sampleTopOv.find_by_path ((sampleArrOv (some [1, 2])).get_rel_path sampleTopOv)
        = .ok (some m) ∧ m.get_path = (sampleArrOv (some [1, 2])).get_path := by
  refine ⟨c7_get_rel_path_roundtrip.1 sampleRegOv, ?_⟩
  exact c7_get_rel_path_roundtrip.2 sampleRoot [⟨0, none⟩] [⟨0, none⟩, ⟨1, some [1, 2]⟩]
    sampleTopOv (sampleArrOv (some [1, 2])) rfl rfl rfl rfl rfl rfl rfl (by decide)

end SystemRDL











